import Mathlib

/-!
Verification of the subject-index pipeline of `beyond-popular-science`.

The definitions below are a shallow embedding of the deterministic core of
`src/index/extract_subjects.py` (candidate aggregation in `run_pass1`,
tag resolution, index accumulation and the normalization pass in
`build_final_index`, and the renderer `generate_latex`) and of the
deduplication / cap logic of `src/index/consolidate_subjects.py`.

Python dictionaries are modelled as insertion-ordered association lists
(`List (key × value)`), which is exactly the observable behaviour of
CPython dicts: lookup finds the unique key, updates keep the position of an
existing key, and a new key is appended at the end.  Python sets of
strings are modelled as `Finset String`.  Python `sorted` is a stable
sort, modelled with `List.insertionSort`.  Python string operations
(`lower`, `strip`, `split`, `in`, `replace`, `join`) are implemented
below over `List Char`; they agree with CPython on the ASCII data this
pipeline handles.
-/

set_option maxRecDepth 10000

/-- Python `str.lower()` (ASCII range, as `Char.toLower`). -/
def pyLower (s : String) : String := ⟨s.data.map Char.toLower⟩

/-- Trim whitespace from both ends of a character list. -/
def trimChars (l : List Char) : List Char :=
  ((l.dropWhile Char.isWhitespace).reverse.dropWhile Char.isWhitespace).reverse

/-- Python `str.strip()`. -/
def pyStrip (s : String) : String := ⟨trimChars s.data⟩

/-- Substring test on character lists: does `needle` occur inside `hay`? -/
def containsSub (hay needle : List Char) : Bool :=
  match hay with
  | [] => needle.isEmpty
  | _ :: t => needle.isPrefixOf hay || containsSub t needle

/-- Python `needle in hay` for strings. -/
def pyIn (needle hay : String) : Bool := containsSub hay.data needle.data

/-- Fuel-driven splitter (structural recursion so that the kernel can
evaluate it); the fuel is always at least the length of the list, so the
fuel-exhausted branch is never reached. -/
def splitCharsAux (sep : List Char) : Nat → List Char → List (List Char)
  | _, [] => [[]]
  | 0, l => [l]
  | fuel + 1, c :: rest =>
    if sep.isPrefixOf (c :: rest) ∧ sep ≠ [] then
      [] :: splitCharsAux sep fuel (rest.drop (sep.length - 1))
    else
      match splitCharsAux sep fuel rest with
      | [] => [[c]]
      | h :: t => (c :: h) :: t

/-- Split a character list on every non-overlapping occurrence of `sep`,
left to right, as Python `str.split(sep)` does for a non-empty separator. -/
def splitChars (sep l : List Char) : List (List Char) :=
  splitCharsAux sep l.length l

/-- Python `s.split(sep)` for strings. -/
def pySplit (sep s : String) : List String := (splitChars sep.data s.data).map fun l => ⟨l⟩

/-- Python `s.replace(pat, repl)`: join the split parts with the replacement. -/
def pyReplace (s pat repl : String) : String :=
  ⟨List.intercalate repl.data (splitChars pat.data s.data)⟩

/-- Python `sep.join(parts)`. -/
def pyJoin (sep : String) (l : List String) : String :=
  match l with
  | [] => ""
  | h :: t => t.foldl (fun acc x => acc ++ sep ++ x) h

/-- Code-point lexicographic comparison of character lists, the ordering
Python uses for `str` comparisons. -/
def lexLeB : List Char → List Char → Bool
  | [], _ => true
  | _ :: _, [] => false
  | c :: cs, d :: ds =>
    if c.toNat < d.toNat then true
    else if d.toNat < c.toNat then false
    else lexLeB cs ds

/-- Python `a <= b` on strings. -/
def strLeB (a b : String) : Bool := lexLeB a.data b.data

instance {α : Type} (key : α → String) :
    DecidableRel fun a b : α => strLeB (key a) (key b) = true :=
  fun a b => inferInstanceAs (Decidable (_ = true))

/-- Stable sort by a string-valued key, as Python `sorted(l, key=key)`. -/
def sortOn {α : Type} (key : α → String) (l : List α) : List α :=
  l.insertionSort fun a b => strLeB (key a) (key b) = true

/-- Python `sorted` on strings (code-point lexicographic). -/
def sortStr (l : List String) : List String := sortOn id l

/-- Python `sorted` on integer chapter numbers. -/
def sortNat (l : List Nat) : List Nat :=
  l.insertionSort fun a b => a ≤ b

instance : DecidableRel fun a b : Nat => a ≤ b := fun a b => Nat.decLe a b

/-- Append `x` to `l` unless already present: the repeated Python pattern
`if x not in l: l.append(x)`. -/
def addUnique {α : Type} [DecidableEq α] (l : List α) (x : α) : List α :=
  if x ∈ l then l else l ++ [x]

/-- Dictionary update, CPython semantics: replace the value at the first
occurrence of key `k` using `f`, or append `(k, v)` at the end when `k` is
absent. -/
def updEntry {κ ν : Type} [DecidableEq κ] (d : List (κ × ν)) (k : κ) (f : ν → ν) (v : ν) :
    List (κ × ν) :=
  match d with
  | [] => [(k, v)]
  | (k1, o) :: t => if k1 = k then (k1, f o) :: t else (k1, o) :: updEntry t k f v

/-- Dictionary lookup: value at the first occurrence of `k`. -/
def dictFind {κ ν : Type} [DecidableEq κ] (d : List (κ × ν)) (k : κ) : Option ν :=
  match d with
  | [] => none
  | (k1, v) :: t => if k1 = k then some v else dictFind t k

/-- Lookup with a default value. -/
def dictGetD {κ ν : Type} [DecidableEq κ] (d : List (κ × ν)) (k : κ) (dflt : ν) : ν :=
  (dictFind d k).getD dflt

/-- Python `del d[k]` (keys are unique in a dict, so removing every entry
with the key is exact). -/
def dictDelete {κ ν : Type} [DecidableEq κ] : List (κ × ν) → κ → List (κ × ν)
  | [], _ => []
  | p :: t, k => if p.1 = k then dictDelete t k else p :: dictDelete t k

/-- The key list of an association list. -/
def keysOf {κ ν : Type} (d : List (κ × ν)) : List κ := d.map Prod.fst

/-! ### Data model (spec section 3, `extract_subjects.py`) -/

/-- One `{subject, subtopics[]}` entry of a Pass-1 model response. -/
structure P1Entry where
  subject : String
  subtopics : List String
deriving DecidableEq

/-- A per-chapter Pass-1 record (`extract_candidates_for_chapter` result). -/
structure P1Record where
  chapter_num : Nat
  chapter_dir : String
  subjects : List P1Entry
  error : Option String
deriving DecidableEq

/-- One `{subject, subtopic|null}` classification tag of a Pass-2 response. -/
structure Tag where
  subject : String
  subtopic : Option String
deriving DecidableEq

/-- A per-chapter Pass-2 record (`classify_chapter` result). -/
structure ChapterResult where
  chapter_num : Nat
  chapter_dir : String
  entries : List Tag
  error : Option String
deriving DecidableEq

/-- An approved-subject entry of `candidates.json`.  The `include` flag is
omitted: `build_final_index` receives the already-filtered approved list. -/
structure Candidate where
  subject : String
  subtopics : List String
deriving DecidableEq

/-- Per-subject index: subtopic key (or `none` for a bare subject tag) to
the chapter-number list, in insertion order (`index[subject]`). -/
abbrev SubtopicMap := List (Option String × List Nat)

/-- The whole index mapping `subject -> subtopic -> [chapter_nums]`. -/
abbrev IndexMap := List (String × SubtopicMap)

/-! ### Pass 1: model-call error recovery and candidate aggregation
(`extract_candidates_for_chapter`, `run_pass1` lines 213-242) -/

/-- `extract_candidates_for_chapter`: the whole body runs under
`try/except`; the model call plus JSON parse is modelled as an
`Except`-valued response.  On any exception a record with an empty subject
list and the message in `error` is returned. -/
def extractCandidatesForChapter (dir : String) (num : Nat)
    (resp : Except String (List P1Entry)) : P1Record :=
  match resp with
  | .ok subjects => ⟨num, dir, subjects, none⟩
  | .error e => ⟨num, dir, [], some e⟩

/-- `classify_chapter`: same recovery shape for Pass 2. -/
def classifyChapter (dir : String) (num : Nat)
    (resp : Except String (List Tag)) : ChapterResult :=
  match resp with
  | .ok entries => ⟨num, dir, entries, none⟩
  | .error e => ⟨num, dir, [], some e⟩

/-- The normalized subtopic set contributed by one Pass-1 entry:
`subtopic.lower().strip()` for each truthy subtopic (`run_pass1` line 226-228). -/
def normSubs (l : List String) : Finset String :=
  l.foldl (fun acc st => if st = "" then acc else insert (pyStrip (pyLower st)) acc) ∅

/-- Aggregation state entry: lowercased key maps to the first-seen display
spelling and the accumulated subtopic set (`all_subjects` in `run_pass1`). -/
abbrev AggMap := List (String × String × Finset String)

/-- Fold one Pass-1 subject entry into the `all_subjects` accumulator
(`run_pass1` lines 216-228): skip empty subjects, key by `subj.lower()`,
create the entry on first sight, union the normalized subtopics. -/
def p1AddEntry (m : AggMap) (e : P1Entry) : AggMap :=
  let subj := pyStrip e.subject
  if subj = "" then m
  else updEntry m (pyLower subj)
    (fun pr => (pr.1, pr.2 ∪ normSubs e.subtopics))
    (subj, normSubs e.subtopics)

/-- The full Pass-1 aggregation over all chapter records. -/
def aggP1 (results : List P1Record) : AggMap :=
  results.foldl (fun m r => r.subjects.foldl p1AddEntry m) []

/-- The subtopic set aggregated for a given lowercased key. -/
def subtopicsAt (m : AggMap) (key : String) : Finset String :=
  match dictFind m key with
  | none => ∅
  | some pr => pr.2

/-- All Pass-1 subject entries of a record list, in order (for stating
order-independence of the aggregation). -/
def flatEntries (results : List P1Record) : List P1Entry :=
  (results.map P1Record.subjects).flatten

/-- Spec-side description of the aggregate at a key: the union of the
normalized subtopic sets of every entry whose stripped, lowercased subject
equals the key. -/
def specSubsE (entries : List P1Entry) (key : String) : Finset String :=
  entries.foldr
    (fun e acc =>
      if pyStrip e.subject ≠ "" ∧ pyLower (pyStrip e.subject) = key
      then normSubs e.subtopics ∪ acc else acc) ∅

/-! ### Consolidation (`consolidate_subjects.py` lines 128-158) -/

/-- One consolidated item returned by a batch call. -/
structure ConsItem where
  subject : String
  subtopics : List String
deriving DecidableEq

/-- `item['subject'].lower().strip()`: the cross-batch dedup key. -/
def consKey (s : String) : String := pyStrip (pyLower s)

/-- Cross-batch deduplication (`main` lines 128-141): first spelling wins,
subtopic sets are unioned.  CPython stores `list(old_set | new_set)` whose
iteration order is unspecified; the merged set is modelled in sorted order,
which spec section 4.3 explicitly allows as a deterministic choice. -/
def consMerge (items : List ConsItem) : List (String × String × List String) :=
  items.foldl
    (fun m it =>
      updEntry m (consKey it.subject)
        (fun pr => (pr.1, sortStr ((pr.2 ++ it.subtopics).dedup)))
        (it.subject, it.subtopics)) []

/-- `final_for_pass2` (lines 149-155): sort by `subject.lower()` and cap
each subtopic list at 8 entries with `[:8]`. -/
def finalForPass2 (items : List ConsItem) : List Candidate :=
  (sortOn (fun e => pyLower e.2.1) (consMerge items)).map
    fun e => ⟨e.2.1, e.2.2.take 8⟩

/-! ### Index Builder (`build_final_index` lines 436-521) -/

/-- `a['subject'].lower() == subject_lower` (line 449). -/
def exactMatchB (a : Candidate) (subject : String) : Bool :=
  pyLower a.subject == pyLower subject

/-- `subject_lower in a['subject'].lower() or a['subject'].lower() in
subject_lower` (line 456). -/
def substrMatchB (a : Candidate) (subject : String) : Bool :=
  pyIn (pyLower subject) (pyLower a.subject) || pyIn (pyLower a.subject) (pyLower subject)

/-- Tag-to-approved-subject resolution (lines 445-462): case-insensitive
exact match first, then first containment match in approved-list order,
else dropped. -/
def matchApproved (approved : List Candidate) (subject : String) : Option String :=
  match approved.find? (exactMatchB · subject) with
  | some a => some a.subject
  | none =>
    match approved.find? (substrMatchB · subject) with
    | some a => some a.subject
    | none => none

/-- `subtopic.lower().strip() if subtopic else None` (line 467): `None` and
the empty string both collapse to the null key. -/
def subtopicKey (sub : Option String) : Option String :=
  match sub with
  | none => none
  | some s => if s = "" then none else some (pyStrip (pyLower s))

/-- Accumulate one Pass-2 tag into the index (lines 438-473): strip the
subject, drop empty or unresolvable subjects, then create-or-extend the
nested mapping, appending the chapter number at most once. -/
def addTag (approved : List Candidate) (idx : IndexMap) (chNum : Nat) (tag : Tag) :
    IndexMap :=
  let subject := pyStrip tag.subject
  if subject = "" then idx
  else
    match matchApproved approved subject with
    | none => idx
    | some ms =>
      let key := subtopicKey tag.subtopic
      updEntry idx ms
        (fun d => updEntry d key (fun o => addUnique o chNum) [chNum])
        [(key, [chNum])]

/-- The accumulation phase of `build_final_index` over all chapters. -/
def buildIndexAccum (approved : List Candidate) (results : List ChapterResult) : IndexMap :=
  results.foldl
    (fun idx r => r.entries.foldl (fun idx e => addTag approved idx r.chapter_num e) idx) []

/-- The allow-list of compound subtopics kept unsplit (lines 477-481). -/
def keepCombined : List String :=
  ["fields and forces", "formalism & notation", "error and bias"]

/-- `subtopic_key.lower() in [k.lower() for k in keep_combined]` (line 488). -/
def isKept (s : String) : Bool :=
  (keepCombined.map pyLower).contains (pyLower s)

/-- Merge chapters into `new_subtopics[k]` (the pattern at lines 490-494 /
499-503 / 508-512): create the key with `[]` when absent, then extend
uniquely. -/
def mergeIntoNew (n : SubtopicMap) (k : Option String) (chs : List Nat) : SubtopicMap :=
  updEntry n k (fun o => chs.foldl addUnique o) (chs.foldl addUnique [])

/-- One step of the first normalization loop (lines 486-512), processing a
snapshot item against the live dict `d` and the `new_subtopics` dict `n`:
allow-listed keys and non-splittable keys are copied into `n`; a key
containing `" and "` is split on it, each trimmed part inherits the
chapters, and the combined key is deleted from `d`. -/
def normStep (st : SubtopicMap × SubtopicMap) (item : Option String × List Nat) :
    SubtopicMap × SubtopicMap :=
  match item with
  | (some s, chs) =>
    if s ≠ "" ∧ isKept s then (st.1, mergeIntoNew st.2 (some s) chs)
    else if s ≠ "" ∧ pyIn " and " s then
      (dictDelete st.1 (some s),
        ((pySplit " and " s).map pyStrip).foldl (fun n p => mergeIntoNew n (some p) chs) st.2)
    else (st.1, mergeIntoNew st.2 (some s) chs)
  | (none, chs) => (st.1, mergeIntoNew st.2 none chs)

/-- `for k, v in new_subtopics.items(): ...` (lines 515-521): assign when
absent, extend uniquely when present. -/
def mergeBackOne (d : SubtopicMap) (k : Option String) (v : List Nat) : SubtopicMap :=
  updEntry d k (fun o => v.foldl addUnique o) v

/-- The per-subject normalization pass of `build_final_index`
(lines 483-521): fold the snapshot of the items through `normStep`, then
merge `new_subtopics` back into the (possibly reduced) dict. -/
def normalizeSubtopics (d : SubtopicMap) : SubtopicMap :=
  let st := d.foldl normStep (d, [])
  st.2.foldl (fun dd p => mergeBackOne dd p.1 p.2) st.1

/-- The normalization pass applied to every subject of the index. -/
def normalizeIndex (idx : IndexMap) : IndexMap :=
  idx.map fun p => (p.1, normalizeSubtopics p.2)

/-- `build_final_index`: accumulation followed by normalization. -/
def buildFinalIndex (approved : List Candidate) (results : List ChapterResult) : IndexMap :=
  normalizeIndex (buildIndexAccum approved results)

/-- The set of all chapter numbers stored under a subject. -/
def chapterSet (d : SubtopicMap) : Finset Nat :=
  d.foldr (fun p acc => p.2.toFinset ∪ acc) ∅

/-! ### Renderer (`generate_latex` lines 535-638) -/

/-- `subject.replace('&', '\\&')` (line 576). -/
def escSubject (s : String) : String := pyReplace s "&" "\\&"

/-- One reference token (lines 593-597 etc.): a `\pageref` when the chapter
has a label, else the raw chapter number. -/
def refOf (labels : List (Nat × String)) (ch : Nat) : String :=
  match dictFind labels ch with
  | some lab => "\\pageref\x7b" ++ lab ++ "\x7d"
  | none => toString ch

/-- The reference list for an already-sorted chapter list. -/
def mkRefs (labels : List (Nat × String)) (chs : List Nat) : List String :=
  chs.map (refOf labels)

/-- `named_subtopics = {k: v for k, v in subtopics.items() if k is not None}`
(line 573). -/
def namedOf (d : SubtopicMap) : List (String × List Nat) :=
  d.filterMap fun p =>
    match p.1 with
    | some s => some (s, p.2)
    | none => none

/-- Group the named subtopics by their sorted chapter tuple
(`chapter_to_subtopics`, lines 582-587), keeping insertion order of both
groups and members. -/
def groupByChapters (named : List (String × List Nat)) : List (List Nat × List String) :=
  named.foldl (fun g p => updEntry g (sortNat p.2) (fun subs => subs ++ [p.1]) [p.1]) []

/-- The union of all chapters of a subject, sorted and deduplicated
(`all_chapters`, lines 567-570 and 617). -/
def allChaptersOf (d : SubtopicMap) : List Nat :=
  sortNat (d.foldr (fun p acc => p.2 ++ acc) []).dedup

/-- The lines emitted for one subject (lines 565-622): no-subtopic form,
inline merged form when all named subtopics group to a single chapter
tuple, hierarchical form otherwise. -/
def subjectBlock (subject : String) (d : SubtopicMap) (labels : List (Nat × String)) :
    List String :=
  let named := namedOf d
  let subjEsc := escSubject subject
  if named.isEmpty then
    ["\\textbf\x7b" ++ subjEsc ++ "\x7d, " ++ pyJoin ", " (mkRefs labels (allChaptersOf d)) ++ "\\\\"]
  else
    let groups := groupByChapters named
    if groups.length = 1 then
      match groups with
      | (key, subs) :: _ =>
        ["\\textbf\x7b" ++ subjEsc ++ "\x7d (" ++ pyJoin ", " (sortStr subs) ++ "), "
          ++ pyJoin ", " (mkRefs labels (sortNat key)) ++ "\\\\"]
      | [] => []
    else
      ("\\textbf\x7b" ++ subjEsc ++ "\x7d\\\\") ::
        (sortStr (named.map Prod.fst)).map fun sub =>
          "\\hspace*\x7b1.5em\x7d" ++ sub ++ ", "
            ++ pyJoin ", " (mkRefs labels (sortNat (dictGetD named sub []))) ++ "\\\\"

/-- `sorted(index.keys(), key=lambda x: x.lower())` (line 553). -/
def sortedSubjectsOf (idx : IndexMap) : List String :=
  sortOn pyLower (idx.map Prod.fst)

/-- `subject[0].upper() if subject else '?'` (line 557). -/
def letterOf (subject : String) : Char :=
  match subject.data with
  | [] => '?'
  | c :: _ => c.toUpper

/-- The body of the index: the letter-header loop of lines 556-622,
threading the current letter through the sorted subjects. -/
def bodyLines (idx : IndexMap) (labels : List (Nat × String)) : List String :=
  ((sortedSubjectsOf idx).foldl
    (fun (st : List String × Option Char) subject =>
      let fl := letterOf subject
      let st1 :=
        if st.2 ≠ some fl then
          (st.1 ++ (if st.2 = none then [] else [""])
            ++ ["\\noindent\\textbf\x7b" ++ String.singleton fl ++ "\x7d\\\\[0.3em]"], some fl)
        else st
      (st1.1 ++ subjectBlock subject (dictGetD idx subject []) labels, st1.2))
    ([], none)).1

/-- The fixed header lines (lines 538-551); the second line embeds the
wall-clock timestamp `datetime.now().strftime('%Y-%m-%d %H:%M')`. -/
def headerLines (now : String) : List String :=
  "% Subject Index - Beyond Popular Science" ::
    ("% Auto-generated by extract_subjects.py on " ++ now) ::
    ["% Two-pass extraction using Gemini 3 Pro Preview",
     "",
     "\\chapter*\x7bSubject Index\x7d",
     "\\markboth\x7bSUBJECT INDEX\x7d\x7bSUBJECT INDEX\x7d",
     "\\addcontentsline\x7btoc\x7d\x7bchapter\x7d\x7bSubject Index\x7d",
     "",
     "\\begin\x7bmulticols\x7d\x7b2\x7d",
     "\\small",
     "\\setlength\x7b\\parskip\x7d\x7b0.3em\x7d",
     ""]

/-- All output lines of `generate_latex` (header, body, footer of
lines 624-628). -/
def generateLines (now : String) (idx : IndexMap) (labels : List (Nat × String)) :
    List String :=
  headerLines now ++ bodyLines idx labels ++ ["", "\\end\x7bmulticols\x7d", ""]

/-- The file content written by `generate_latex`: `'\n'.join(lines)`. -/
def generateLatex (now : String) (idx : IndexMap) (labels : List (Nat × String)) : String :=
  pyJoin "\n" (generateLines now idx labels)

/-! ### Concrete inputs used by the witnesses and counterexamples -/

/-- The approved list of the end-to-end scenario of spec section 8. -/
def gravityApproved : List Candidate := [⟨"Gravity", []⟩]

/-- The two-chapter Pass-2 records of the end-to-end scenario: chapter 1
tagged `(Gravity, null)` and `(Gravity, tides)`, chapter 2 tagged
`(Gravity, tides)`. -/
def gravityResults : List ChapterResult :=
  [⟨1, "01_one", [⟨"Gravity", none⟩, ⟨"Gravity", some "tides"⟩], none⟩,
   ⟨2, "02_two", [⟨"Gravity", some "tides"⟩], none⟩]

/-- A subject map holding the combined subtopic of the split example. -/
def darkMap : SubtopicMap := [(some "dark matter and dark energy", [3, 7])]

/-- A two-subtopic subject map whose chapter sets differ by one element. -/
def splitSetsMap : SubtopicMap := [(some "alpha", [1, 2]), (some "beta", [1])]

/-- A two-subtopic subject map whose chapter sets agree. -/
def sameSetsMap : SubtopicMap := [(some "beta", [2, 1]), (some "alpha", [1, 2])]

/-- A subject map with a chapter (5) that appears only under the null key. -/
def nullOnlyMap : SubtopicMap := [(none, [5]), (some "alpha", [1, 2])]

/-- Pass-1 records for the aggregation witnesses: the same subject in two
spellings plus a repeated entry. -/
def aggRecA : P1Record :=
  ⟨1, "01_one", [⟨"Gravity", ["Tides", "orbits "]⟩], none⟩

/-- Second Pass-1 record, lowercase spelling, overlapping subtopics. -/
def aggRecB : P1Record :=
  ⟨2, "02_two", [⟨"gravity", ["tides", "waves"]⟩], none⟩

/-- A consolidation input with ten subtopics on one subject. -/
def consItems : List ConsItem :=
  [⟨"Cosmology", ["a", "b", "c", "d", "e", "f", "g", "h", "i", "j"]⟩,
   ⟨"Gravity", ["tides"]⟩]

/-! ### Spec-side renderer forms (for the refinement statement of C2) -/

/-- The inline merged form as described by the spec: all named subtopics
comma-joined and alphabetically sorted in parentheses next to the subject,
followed by the single shared reference list (the common sorted chapter
tuple, taken from the first named subtopic). -/
def inlineForm (subject : String) (named : List (String × List Nat))
    (labels : List (Nat × String)) : List String :=
  match named with
  | [] => []
  | p :: _ =>
    ["\\textbf\x7b" ++ escSubject subject ++ "\x7d ("
      ++ pyJoin ", " (sortStr (named.map Prod.fst)) ++ "), "
      ++ pyJoin ", " (mkRefs labels (sortNat p.2)) ++ "\\\\"]

/-- The standalone-hierarchical form as described by the spec: a bare
subject line followed by one indented line per named subtopic in
alphabetical order, each with its own reference list. -/
def hierForm (subject : String) (named : List (String × List Nat))
    (labels : List (Nat × String)) : List String :=
  ("\\textbf\x7b" ++ escSubject subject ++ "\x7d\\\\") ::
    (sortStr (named.map Prod.fst)).map fun sub =>
      "\\hspace*\x7b1.5em\x7d" ++ sub ++ ", "
        ++ pyJoin ", " (mkRefs labels (sortNat (dictGetD named sub []))) ++ "\\\\"

/-- A failed Pass-1 record (for the error-recovery witness). -/
def failedP1 : P1Record := ⟨3, "03_bad", [], some "boom"⟩

/-- A failed Pass-2 record (for the error-recovery witness). -/
def failedP2 : ChapterResult := ⟨3, "03_bad", [], some "boom"⟩

/-! ### Helper lemmas: `addUnique` -/

theorem mem_addUnique {α : Type} [DecidableEq α] (l : List α) (x y : α) :
    y ∈ addUnique l x ↔ y ∈ l ∨ y = x := by
  unfold addUnique
  split
  · constructor
    · exact Or.inl
    · rintro (h | rfl)
      · exact h
      · assumption
  · simp

theorem nodup_addUnique {α : Type} [DecidableEq α] {l : List α} (x : α) (h : l.Nodup) :
    (addUnique l x).Nodup := by
  unfold addUnique
  split
  · exact h
  · simpa [List.nodup_append] using ⟨h, by assumption⟩

theorem mem_foldl_addUnique {α : Type} [DecidableEq α] (cs l : List α) (y : α) :
    y ∈ cs.foldl addUnique l ↔ y ∈ l ∨ y ∈ cs := by
  induction cs generalizing l with
  | nil => simp
  | cons c t ih => simp [List.foldl_cons, ih, mem_addUnique]; tauto

theorem nodup_foldl_addUnique {α : Type} [DecidableEq α] (cs : List α) {l : List α}
    (h : l.Nodup) : (cs.foldl addUnique l).Nodup := by
  induction cs generalizing l with
  | nil => exact h
  | cons c t ih => exact ih (nodup_addUnique c h)

theorem toFinset_foldl_addUnique {α : Type} [DecidableEq α] (cs l : List α) :
    (cs.foldl addUnique l).toFinset = l.toFinset ∪ cs.toFinset := by
  ext y
  simp [List.mem_toFinset, mem_foldl_addUnique]

/-! ### Helper lemmas: dictionary operations -/

theorem mem_keysOf_updEntry {κ ν : Type} [DecidableEq κ] (d : List (κ × ν)) (k : κ)
    (f : ν → ν) (v : ν) (k2 : κ) :
    k2 ∈ keysOf (updEntry d k f v) ↔ k2 ∈ keysOf d ∨ k2 = k := by
  induction d with
  | nil => simp [updEntry, keysOf]
  | cons p t ih =>
    obtain ⟨k1, o⟩ := p
    by_cases h : k1 = k
    · subst h; simp [updEntry, keysOf]; tauto
    · simp [updEntry, h, keysOf] at ih ⊢
      tauto

theorem nodup_keysOf_updEntry {κ ν : Type} [DecidableEq κ] {d : List (κ × ν)} (k : κ)
    (f : ν → ν) (v : ν) (h : (keysOf d).Nodup) : (keysOf (updEntry d k f v)).Nodup := by
  induction d with
  | nil => simp [updEntry, keysOf]
  | cons p t ih =>
    obtain ⟨k1, o⟩ := p
    simp only [keysOf, List.map_cons, List.nodup_cons] at h
    by_cases hk : k1 = k
    · subst hk
      simpa [updEntry, keysOf, List.nodup_cons] using h
    · have h2 := ih h.2
      simp only [updEntry, hk, if_false, keysOf, List.map_cons, List.nodup_cons]
      refine ⟨fun hm => ?_, h2⟩
      rw [show (updEntry t k f v).map Prod.fst = keysOf (updEntry t k f v) from rfl,
        mem_keysOf_updEntry] at hm
      rcases hm with hm | hm
      · exact h.1 hm
      · exact hk hm

theorem dictFind_updEntry_self {κ ν : Type} [DecidableEq κ] (d : List (κ × ν)) (k : κ)
    (f : ν → ν) (v : ν) :
    dictFind (updEntry d k f v) k = some ((dictFind d k).elim v f) := by
  induction d with
  | nil => simp [updEntry, dictFind]
  | cons p t ih =>
    obtain ⟨k1, o⟩ := p
    by_cases h : k1 = k
    · subst h; simp [updEntry, dictFind]
    · simp [updEntry, dictFind, h, ih]

theorem dictFind_updEntry_ne {κ ν : Type} [DecidableEq κ] (d : List (κ × ν)) (k k2 : κ)
    (f : ν → ν) (v : ν) (h : k2 ≠ k) :
    dictFind (updEntry d k f v) k2 = dictFind d k2 := by
  induction d with
  | nil => simp [updEntry, dictFind, Ne.symm h]
  | cons p t ih =>
    obtain ⟨k1, o⟩ := p
    by_cases h1 : k1 = k
    · subst h1
      simp [updEntry, dictFind, Ne.symm h]
    · by_cases h2 : k1 = k2 <;> simp [updEntry, dictFind, h1, h2, ih, h]

theorem mem_updEntry_cases {κ ν : Type} [DecidableEq κ] {d : List (κ × ν)} {k : κ}
    {f : ν → ν} {v : ν} {p : κ × ν} (hp : p ∈ updEntry d k f v) :
    p ∈ d ∨ (p.1 = k ∧ (p.2 = v ∨ ∃ o, (k, o) ∈ d ∧ p.2 = f o)) := by
  induction d with
  | nil =>
    simp only [updEntry, List.mem_singleton] at hp
    subst hp
    exact Or.inr ⟨rfl, Or.inl rfl⟩
  | cons q t ih =>
    obtain ⟨k1, o⟩ := q
    by_cases h : k1 = k
    · subst h
      rw [updEntry, if_pos rfl] at hp
      rcases List.mem_cons.1 hp with rfl | hp
      · exact Or.inr ⟨rfl, Or.inr ⟨o, List.mem_cons_self _ _, rfl⟩⟩
      · exact Or.inl (List.mem_cons_of_mem _ hp)
    · rw [updEntry, if_neg h] at hp
      rcases List.mem_cons.1 hp with rfl | hp
      · exact Or.inl (List.mem_cons_self _ _)
      · rcases ih hp with h2 | ⟨h2, h3⟩
        · exact Or.inl (List.mem_cons_of_mem _ h2)
        · refine Or.inr ⟨h2, ?_⟩
          rcases h3 with h3 | ⟨o2, ho2, h3⟩
          · exact Or.inl h3
          · exact Or.inr ⟨o2, List.mem_cons_of_mem _ ho2, h3⟩

theorem dictFind_mem {κ ν : Type} [DecidableEq κ] {d : List (κ × ν)} {k : κ} {v : ν}
    (h : dictFind d k = some v) : (k, v) ∈ d := by
  induction d with
  | nil => simp [dictFind] at h
  | cons p t ih =>
    obtain ⟨k1, o⟩ := p
    by_cases h1 : k1 = k
    · subst h1
      rw [dictFind, if_pos rfl, Option.some_inj] at h
      subst h
      exact List.mem_cons_self _ _
    · rw [dictFind, if_neg h1] at h
      exact List.mem_cons_of_mem _ (ih h)

theorem dictFind_eq_none_iff {κ ν : Type} [DecidableEq κ] (d : List (κ × ν)) (k : κ) :
    dictFind d k = none ↔ k ∉ keysOf d := by
  induction d with
  | nil => simp [dictFind, keysOf]
  | cons p t ih =>
    obtain ⟨k1, o⟩ := p
    by_cases h1 : k1 = k
    · subst h1; simp [dictFind, keysOf]
    · simp [dictFind, keysOf, h1, ih, Ne.symm h1]

theorem dictFind_isSome_of_mem_keys {κ ν : Type} [DecidableEq κ] {d : List (κ × ν)}
    {k : κ} (h : k ∈ keysOf d) : ∃ v, dictFind d k = some v := by
  cases hf : dictFind d k with
  | none => exact absurd h ((dictFind_eq_none_iff d k).1 hf)
  | some v => exact ⟨v, rfl⟩

theorem mem_dictDelete {κ ν : Type} [DecidableEq κ] (d : List (κ × ν)) (k : κ)
    (p : κ × ν) : p ∈ dictDelete d k ↔ p ∈ d ∧ p.1 ≠ k := by
  induction d with
  | nil => simp [dictDelete]
  | cons q t ih =>
    by_cases h1 : q.1 = k
    · rw [dictDelete, if_pos h1, ih]
      constructor
      · rintro ⟨hm, hne⟩
        exact ⟨List.mem_cons_of_mem _ hm, hne⟩
      · rintro ⟨hm, hne⟩
        rcases List.mem_cons.1 hm with rfl | hm
        · exact absurd h1 hne
        · exact ⟨hm, hne⟩
    · rw [dictDelete, if_neg h1]
      constructor
      · intro hm
        rcases List.mem_cons.1 hm with rfl | hm
        · exact ⟨List.mem_cons_self _ _, h1⟩
        · rcases ih.1 hm with ⟨hm2, hne⟩
          exact ⟨List.mem_cons_of_mem _ hm2, hne⟩
      · rintro ⟨hm, hne⟩
        rcases List.mem_cons.1 hm with rfl | hm
        · exact List.mem_cons_self _ _
        · exact List.mem_cons_of_mem _ (ih.2 ⟨hm, hne⟩)

theorem keysOf_dictDelete {κ ν : Type} [DecidableEq κ] (d : List (κ × ν)) (k k2 : κ) :
    k2 ∈ keysOf (dictDelete d k) ↔ k2 ∈ keysOf d ∧ k2 ≠ k := by
  constructor
  · intro h
    rcases List.mem_map.1 h with ⟨p, hp, rfl⟩
    rcases (mem_dictDelete d k p).1 hp with ⟨hm, hne⟩
    exact ⟨List.mem_map_of_mem _ hm, hne⟩
  · rintro ⟨hm, hne⟩
    rcases List.mem_map.1 hm with ⟨p, hp, rfl⟩
    exact List.mem_map_of_mem _ ((mem_dictDelete d k p).2 ⟨hp, hne⟩)

/-! ### Helper lemmas: chapter sets -/

theorem chapterSet_nil : chapterSet [] = ∅ := rfl

theorem mem_chapterSet (d : SubtopicMap) (c : Nat) :
    c ∈ chapterSet d ↔ ∃ p ∈ d, c ∈ p.2 := by
  induction d with
  | nil => simp [chapterSet]
  | cons p t ih =>
    simp only [chapterSet, List.foldr_cons] at ih ⊢
    simp [ih]

theorem chapterSet_mergeIntoNew (n : SubtopicMap) (k : Option String) (chs : List Nat) :
    chapterSet (mergeIntoNew n k chs) = chapterSet n ∪ chs.toFinset := by
  induction n with
  | nil =>
    unfold mergeIntoNew updEntry
    ext c
    simp [chapterSet, toFinset_foldl_addUnique]
  | cons p t ih =>
    obtain ⟨k1, o⟩ := p
    by_cases h : k1 = k
    · unfold mergeIntoNew updEntry
      rw [if_pos h]
      ext c
      simp [chapterSet, toFinset_foldl_addUnique]
      tauto
    · unfold mergeIntoNew updEntry
      rw [if_neg h]
      unfold mergeIntoNew at ih
      ext c
      have ihc := Finset.ext_iff.1 ih c
      simp only [chapterSet, List.foldr_cons, Finset.mem_union] at ihc ⊢
      tauto

theorem chapterSet_mergeBackOne (d : SubtopicMap) (k : Option String) (v : List Nat) :
    chapterSet (mergeBackOne d k v) = chapterSet d ∪ v.toFinset := by
  induction d with
  | nil =>
    unfold mergeBackOne updEntry
    ext c
    simp [chapterSet]
  | cons p t ih =>
    obtain ⟨k1, o⟩ := p
    by_cases h : k1 = k
    · unfold mergeBackOne updEntry
      rw [if_pos h]
      ext c
      simp [chapterSet, toFinset_foldl_addUnique]
      tauto
    · unfold mergeBackOne updEntry
      rw [if_neg h]
      unfold mergeBackOne at ih
      ext c
      have ihc := Finset.ext_iff.1 ih c
      simp only [chapterSet, List.foldr_cons, Finset.mem_union] at ihc ⊢
      tauto

theorem chapterSet_dictDelete_subset (d : SubtopicMap) (k : Option String) :
    chapterSet (dictDelete d k) ⊆ chapterSet d := by
  intro c hc
  rw [mem_chapterSet] at hc ⊢
  rcases hc with ⟨p, hp, hcp⟩
  exact ⟨p, ((mem_dictDelete d k p).1 hp).1, hcp⟩

/-! ### Helper lemmas: splitting -/

theorem splitCharsAux_congr (sep : List Char) :
    ∀ f1 f2 l, l.length ≤ f1 → l.length ≤ f2 →
      splitCharsAux sep f1 l = splitCharsAux sep f2 l := by
  intro f1
  induction f1 with
  | zero =>
    intro f2 l h1 h2
    have hl : l = [] := List.eq_nil_of_length_eq_zero (Nat.le_zero.1 h1)
    subst hl
    cases f2 <;> rfl
  | succ n ih =>
    intro f2 l h1 h2
    cases l with
    | nil => cases f2 <;> rfl
    | cons c rest =>
      cases f2 with
      | zero => simp at h2
      | succ m =>
        have hr1 : rest.length ≤ n := by
          simp only [List.length_cons] at h1
          omega
        have hr2 : rest.length ≤ m := by
          simp only [List.length_cons] at h2
          omega
        rw [splitCharsAux, splitCharsAux]
        by_cases hc : sep.isPrefixOf (c :: rest) = true ∧ sep ≠ []
        · rw [if_pos hc, if_pos hc]
          have hd1 : (rest.drop (sep.length - 1)).length ≤ n :=
            le_trans (by simpa using List.length_drop_le _ _) hr1
          have hd2 : (rest.drop (sep.length - 1)).length ≤ m :=
            le_trans (by simpa using List.length_drop_le _ _) hr2
          rw [ih m (rest.drop (sep.length - 1)) hd1 hd2]
        · rw [if_neg hc, if_neg hc, ih m rest hr1 hr2]

theorem splitChars_nil (sep : List Char) : splitChars sep [] = [[]] := rfl

theorem splitChars_cons (sep : List Char) (c : Char) (rest : List Char) :
    splitChars sep (c :: rest) =
      if sep.isPrefixOf (c :: rest) ∧ sep ≠ [] then
        [] :: splitChars sep (rest.drop (sep.length - 1))
      else
        match splitChars sep rest with
        | [] => [[c]]
        | h :: t => (c :: h) :: t := by
  show splitCharsAux sep (c :: rest).length (c :: rest) = _
  rw [List.length_cons, splitCharsAux]
  by_cases hc : sep.isPrefixOf (c :: rest) = true ∧ sep ≠ []
  · rw [if_pos hc, if_pos hc]
    rw [splitCharsAux_congr sep rest.length (rest.drop (sep.length - 1)).length
      (rest.drop (sep.length - 1)) (by simpa using List.length_drop_le _ _) (Nat.le_refl _)]
    rfl
  · rw [if_neg hc, if_neg hc]
    rfl

theorem splitChars_ne_nil (sep l : List Char) : splitChars sep l ≠ [] := by
  cases l with
  | nil => simp [splitChars_nil]
  | cons c rest =>
    rw [splitChars_cons]
    split
    · simp
    · split <;> simp

theorem splitChars_head_pref (sep l : List Char) :
    ∀ h t, splitChars sep l = h :: t → h <+: l := by
  have main : ∀ n (l : List Char), l.length ≤ n →
      ∀ h t, splitChars sep l = h :: t → h <+: l := by
    intro n
    induction n with
    | zero =>
      intro l hl h t he
      have hnil : l = [] := List.eq_nil_of_length_eq_zero (Nat.le_zero.1 hl)
      subst hnil
      rw [splitChars_nil] at he
      simp only [List.cons.injEq] at he
      rw [← he.1]
    | succ n ih =>
      intro l hl h t he
      cases l with
      | nil =>
        rw [splitChars_nil] at he
        simp only [List.cons.injEq] at he
        rw [← he.1]
      | cons c rest =>
        have hr : rest.length ≤ n := by
          simp only [List.length_cons] at hl
          omega
        rw [splitChars_cons] at he
        by_cases hc : sep.isPrefixOf (c :: rest) = true ∧ sep ≠ []
        · rw [if_pos hc] at he
          simp only [List.cons.injEq] at he
          rw [← he.1]
          exact List.nil_prefix
        · rw [if_neg hc] at he
          cases hsp : splitChars sep rest with
          | nil => exact absurd hsp (splitChars_ne_nil sep rest)
          | cons h2 t2 =>
            rw [hsp] at he
            simp only [List.cons.injEq] at he
            rw [← he.1]
            exact List.cons_prefix_cons.2 ⟨rfl, ih rest hr h2 t2 hsp⟩
  exact main l.length l (Nat.le_refl _)

theorem splitChars_no_sep (sep : List Char) (hsep : sep ≠ []) (l : List Char) :
    ∀ p ∈ splitChars sep l, ¬ sep <:+: p := by
  have main : ∀ n (l : List Char), l.length ≤ n →
      ∀ p ∈ splitChars sep l, ¬ sep <:+: p := by
    intro n
    induction n with
    | zero =>
      intro l hl p hp
      have hnil : l = [] := List.eq_nil_of_length_eq_zero (Nat.le_zero.1 hl)
      subst hnil
      rw [splitChars_nil] at hp
      simp only [List.mem_singleton] at hp
      subst hp
      intro hinf
      exact hsep (List.infix_nil.1 hinf)
    | succ n ih =>
      intro l hl p hp
      cases l with
      | nil =>
        rw [splitChars_nil] at hp
        simp only [List.mem_singleton] at hp
        subst hp
        intro hinf
        exact hsep (List.infix_nil.1 hinf)
      | cons head rest =>
        have hr : rest.length ≤ n := by
          simp only [List.length_cons] at hl
          omega
        rw [splitChars_cons] at hp
        by_cases hc : sep.isPrefixOf (head :: rest) = true ∧ sep ≠ []
        · rw [if_pos hc] at hp
          rcases List.mem_cons.1 hp with rfl | hp
          · intro hinf
            exact hsep (List.infix_nil.1 hinf)
          · have hd : (rest.drop (sep.length - 1)).length ≤ n :=
              le_trans (by simpa using List.length_drop_le _ _) hr
            exact ih (rest.drop (sep.length - 1)) hd p hp
        · rw [if_neg hc] at hp
          cases hsp : splitChars sep rest with
          | nil => exact absurd hsp (splitChars_ne_nil sep rest)
          | cons h2 t2 =>
            rw [hsp] at hp
            rcases List.mem_cons.1 hp with rfl | hp
            · rintro ⟨s, u, he⟩
              cases s with
              | nil =>
                have hpre : sep <+: head :: h2 := ⟨u, by simpa using he⟩
                have hh2 : h2 <+: rest := splitChars_head_pref sep rest h2 t2 hsp
                have hfull : sep <+: head :: rest :=
                  hpre.trans ((List.prefix_cons_inj head).2 hh2)
                exact hc ⟨List.isPrefixOf_iff_prefix.2 hfull, hsep⟩
              | cons c2 s2 =>
                simp only [List.cons_append, List.cons.injEq] at he
                have hinf2 : sep <:+: h2 := ⟨s2, u, he.2⟩
                refine ih rest hr h2 ?_ hinf2
                rw [hsp]
                exact List.mem_cons_self _ _
            · refine ih rest hr p ?_
              rw [hsp]
              exact List.mem_cons_of_mem _ hp
  exact main l.length l (Nat.le_refl _)

theorem trimChars_infixOf (l : List Char) : trimChars l <:+: l := by
  have h1 : (l.dropWhile Char.isWhitespace) <:+ l := List.dropWhile_suffix _
  have h2 : trimChars l <+: (l.dropWhile Char.isWhitespace) := by
    have h3 := @List.dropWhile_suffix Char
      ((l.dropWhile Char.isWhitespace).reverse) Char.isWhitespace
    have h4 := List.reverse_prefix.2 h3
    simpa [trimChars] using h4
  exact (List.IsPrefix.isInfix h2).trans (List.IsSuffix.isInfix h1)

theorem containsSub_iff_infixOf (hay needle : List Char) :
    containsSub hay needle = true ↔ needle <:+: hay := by
  induction hay with
  | nil =>
    simp [containsSub, List.isEmpty_iff, List.infix_nil]
  | cons c t ih =>
    simp [containsSub, Bool.or_eq_true, List.isPrefixOf_iff_prefix, ih,
      List.infix_cons_iff]

theorem string_data_eq_nil {s : String} : s.data = [] ↔ s = "" := by
  cases s with
  | mk d =>
    constructor
    · intro h
      simp only [String.data] at h
      rw [h]
    · intro h
      rw [h]

theorem pyIn_split_part (sep s : String) (hsep : sep ≠ "") :
    ∀ p ∈ (pySplit sep s).map pyStrip, pyIn sep p = false := by
  intro p hp
  rcases List.mem_map.1 hp with ⟨q, hq, rfl⟩
  rcases List.mem_map.1 hq with ⟨cl, hcl, rfl⟩
  have hsepd : sep.data ≠ [] := fun h => hsep (string_data_eq_nil.1 h)
  have hno : ¬ sep.data <:+: cl := splitChars_no_sep sep.data hsepd s.data cl hcl
  have hno2 : ¬ sep.data <:+: trimChars cl :=
    fun hI => hno (hI.trans (trimChars_infixOf cl))
  have : pyIn sep (pyStrip ⟨cl⟩) = containsSub (trimChars cl) sep.data := rfl
  rw [this]
  rw [Bool.eq_false_iff]
  intro htrue
  exact hno2 ((containsSub_iff_infixOf _ _).1 htrue)

theorem sortNat_idem (l : List Nat) : sortNat (sortNat l) = sortNat l :=
  List.Sorted.insertionSort_eq (List.sorted_insertionSort _ l)

theorem find?_decomp {α : Type} (p : α → Bool) (l : List α) {a : α}
    (h : l.find? p = some a) :
    ∃ l1 l2, l = l1 ++ a :: l2 ∧ (∀ b ∈ l1, p b = false) ∧ p a = true := by
  induction l with
  | nil => simp [List.find?] at h
  | cons x t ih =>
    cases hx : p x with
    | true =>
      rw [List.find?_cons_of_pos _ hx, Option.some_inj] at h
      subst h
      exact ⟨[], t, rfl, by simp, hx⟩
    | false =>
      rw [List.find?_cons_of_neg _ (by simp [hx])] at h
      rcases ih h with ⟨l1, l2, rfl, hall, hpa⟩
      refine ⟨x :: l1, l2, rfl, ?_, hpa⟩
      intro b hb
      rcases List.mem_cons.1 hb with rfl | hb
      · exact hx
      · exact hall b hb

/-! ### Claim theorems -/

/-- C4: for every tag with a non-empty (stripped) subject string, resolution
against the approved list yields exactly one of three mutually exclusive
outcomes: the canonical spelling of a case-insensitive exact match when one
exists; otherwise the first approved subject, in approved-list order, whose
name case-insensitively contains or is contained in the tagged subject;
otherwise the tag resolves to nothing and is dropped. -/
theorem tag_resolution_trichotomy (approved : List Candidate) (subject : String)
    (hs : subject ≠ "") :
    (∃ a ∈ approved, exactMatchB a subject = true ∧
       matchApproved approved subject = some a.subject)
    ∨ ((∀ a ∈ approved, exactMatchB a subject = false) ∧
       ∃ l1 a l2, approved = l1 ++ a :: l2 ∧ substrMatchB a subject = true ∧
         (∀ b ∈ l1, substrMatchB b subject = false) ∧
         matchApproved approved subject = some a.subject)
    ∨ ((∀ a ∈ approved, exactMatchB a subject = false) ∧
       (∀ a ∈ approved, substrMatchB a subject = false) ∧
       matchApproved approved subject = none) := by
  cases he : approved.find? (exactMatchB · subject) with
  | some a =>
    left
    refine ⟨a, List.mem_of_find?_eq_some he, ?_, by unfold matchApproved; rw [he]⟩
    have hpa := List.find?_some he
    simpa using hpa
  | none =>
    have hexnone : ∀ a ∈ approved, exactMatchB a subject = false := by
      intro a ha
      simpa using List.find?_eq_none.1 he a ha
    cases hs2 : approved.find? (substrMatchB · subject) with
    | some a =>
      right; left
      rcases find?_decomp _ _ hs2 with ⟨l1, l2, heq, hall, hpa⟩
      exact ⟨hexnone, l1, a, l2, heq, hpa, hall,
        by unfold matchApproved; rw [he, hs2]⟩
    | none =>
      right; right
      refine ⟨hexnone, ?_, by unfold matchApproved; rw [he, hs2]⟩
      intro a ha
      simpa using List.find?_eq_none.1 hs2 a ha

/-- Witness for C4: resolving the tag subject `gravity` against the
approved list containing `Gravity` lands in the exact-match outcome. -/
theorem tag_resolution_trichotomy_witness :
    (∃ a ∈ gravityApproved, exactMatchB a "gravity" = true ∧
       matchApproved gravityApproved "gravity" = some a.subject)
    ∨ ((∀ a ∈ gravityApproved, exactMatchB a "gravity" = false) ∧
       ∃ l1 a l2, gravityApproved = l1 ++ a :: l2 ∧ substrMatchB a "gravity" = true ∧
         (∀ b ∈ l1, substrMatchB b "gravity" = false) ∧
         matchApproved gravityApproved "gravity" = some a.subject)
    ∨ ((∀ a ∈ gravityApproved, exactMatchB a "gravity" = false) ∧
       (∀ a ∈ gravityApproved, substrMatchB a "gravity" = false) ∧
       matchApproved gravityApproved "gravity" = none) :=
  tag_resolution_trichotomy gravityApproved "gravity" (by decide)

/-- C8: a chapter whose model call or JSON parse raises is recovered
locally: the produced record keeps the chapter number and directory, has an
empty subject/entry list and the message in its error field, and a record
with an empty subject/entry list contributes nothing to the downstream
aggregation (Pass 1) or index accumulation (Pass 2); every other chapter is
unaffected. -/
theorem model_failure_recovery :
    (∀ dir num msg, extractCandidatesForChapter dir num (.error msg)
        = ⟨num, dir, [], some msg⟩)
    ∧ (∀ dir num msg, classifyChapter dir num (.error msg)
        = ⟨num, dir, [], some msg⟩)
    ∧ (∀ (rs1 rs2 : List P1Record) (r : P1Record), r.subjects = [] →
        aggP1 (rs1 ++ r :: rs2) = aggP1 (rs1 ++ rs2))
    ∧ (∀ (rs1 rs2 : List ChapterResult) (r : ChapterResult)
        (approved : List Candidate), r.entries = [] →
        buildIndexAccum approved (rs1 ++ r :: rs2) = buildIndexAccum approved (rs1 ++ rs2)) := by
  refine ⟨fun dir num msg => rfl, fun dir num msg => rfl, ?_, ?_⟩
  · intro rs1 rs2 r hr
    unfold aggP1
    simp [List.foldl_append, List.foldl_cons, hr]
  · intro rs1 rs2 r approved hr
    unfold buildIndexAccum
    simp [List.foldl_append, List.foldl_cons, hr]

/-- Witness for C8: the failed record of chapter 3 is produced as recorded
and drops out of both aggregations. -/
theorem model_failure_recovery_witness :
    extractCandidatesForChapter "03_bad" 3 (.error "boom") = failedP1
    ∧ aggP1 [aggRecA, failedP1, aggRecB] = aggP1 [aggRecA, aggRecB]
    ∧ buildIndexAccum gravityApproved (gravityResults ++ [failedP2])
        = buildIndexAccum gravityApproved gravityResults := by
  have h := model_failure_recovery
  refine ⟨h.1 "03_bad" 3 "boom", ?_, ?_⟩
  · exact h.2.2.1 [aggRecA] [aggRecB] failedP1 rfl
  · have h2 := h.2.2.2 gravityResults [] failedP2 gravityApproved rfl
    simpa using h2

/-- C9: after cross-batch deduplication, every entry written to the
consolidated candidates list carries at most 8 subtopics, for any input
items. -/
theorem consolidation_subtopic_cap (items : List ConsItem) (c : Candidate)
    (hc : c ∈ finalForPass2 items) : c.subtopics.length ≤ 8 := by
  unfold finalForPass2 at hc
  rcases List.mem_map.1 hc with ⟨e, he, rfl⟩
  rw [List.length_take]
  exact Nat.min_le_left _ _

/-- Witness for C9: a ten-subtopic subject is capped to 8. -/
theorem consolidation_subtopic_cap_witness :
    (⟨"Cosmology", ["a", "b", "c", "d", "e", "f", "g", "h"]⟩ : Candidate)
        ∈ finalForPass2 consItems
    ∧ (⟨"Cosmology", ["a", "b", "c", "d", "e", "f", "g", "h"]⟩ :
        Candidate).subtopics.length ≤ 8 :=
  ⟨by decide, consolidation_subtopic_cap consItems _ (by decide)⟩

/-- C5 counterexample: the renderer embeds `datetime.now()` into the second
output line, so two runs of `generate_latex` over the identical index
mapping and label lookup, at wall-clock minutes that differ, produce
different bytes. -/
theorem render_not_byte_identical :
    generateLatex "2025-01-01 00:00" [] [] ≠ generateLatex "2025-01-01 00:01" [] [] := by
  decide

/-- C5 amended: rendering is deterministic given the index, the label
lookup and the timestamp string; two runs over the same index and labels
differ at most in the timestamp comment line (line index 1 of the output). -/
theorem render_deterministic_modulo_timestamp (t1 t2 : String) (idx : IndexMap)
    (labels : List (Nat × String)) :
    (generateLines t1 idx labels).eraseIdx 1 = (generateLines t2 idx labels).eraseIdx 1
    ∧ (generateLines t1 idx labels).length = (generateLines t2 idx labels).length := by
  constructor <;> simp [generateLines, headerLines, List.eraseIdx]

/-- C1 counterexample: on the two-chapter Gravity scenario the Index
Builder does produce `Gravity -> (null: [1], tides: [1, 2])`, but the
renderer groups only the non-null subtopics; the single subtopic `tides`
trivially forms one group, so the inline merged form is emitted, not the
standalone-hierarchical form with a bare subject line referencing chapter 1
and an indented `tides` line that the claim asserts. -/
theorem scenario_not_hierarchical :
    buildFinalIndex gravityApproved gravityResults
        = [("Gravity", [(none, [1]), (some "tides", [1, 2])])]
    ∧ bodyLines (buildFinalIndex gravityApproved gravityResults) []
        = ["\\noindent\\textbf\x7bG\x7d\\\\[0.3em]",
           "\\textbf\x7bGravity\x7d (tides), 1, 2\\\\"]
    ∧ bodyLines (buildFinalIndex gravityApproved gravityResults) []
        ≠ ["\\noindent\\textbf\x7bG\x7d\\\\[0.3em]",
           "\\textbf\x7bGravity\x7d, 1\\\\",
           "\\hspace*\x7b1.5em\x7dtides, 1, 2\\\\"]
    ∧ (∀ line ∈ bodyLines (buildFinalIndex gravityApproved gravityResults) [],
        line ≠ "\\textbf\x7bGravity\x7d\\\\" ∧ line ≠ "\\textbf\x7bGravity\x7d, 1\\\\"
          ∧ line ≠ "\\hspace*\x7b1.5em\x7dtides, 1, 2\\\\") := by
  decide

/-- C1 amended: on the two-chapter Gravity scenario the Index Builder
produces `Gravity -> (null: [1], tides: [1, 2])`, and because the renderer
groups only non-null subtopics and the single subtopic `tides` occupies one
group, it emits the inline merged form: the subject with `(tides)` in
parentheses and references to chapters 1 and 2 on one line; the chapter set
of the null subtopic produces no line of its own. -/
theorem scenario_inline_render :
    buildFinalIndex gravityApproved gravityResults
        = [("Gravity", [(none, [1]), (some "tides", [1, 2])])]
    ∧ bodyLines (buildFinalIndex gravityApproved gravityResults) []
        = ["\\noindent\\textbf\x7bG\x7d\\\\[0.3em]",
           "\\textbf\x7bGravity\x7d (tides), 1, 2\\\\"] := by
  decide

/-- C10: for a subject with at least one non-null subtopic, the rendered
block is a function of the non-null subtopics alone: removing the null
entry (and with it every chapter number recorded only under the null key)
leaves every rendered line unchanged, so such chapters are absent from the
output; the union over all subtopics including null is used only in the
branch for subjects with no non-null subtopic at all. -/
theorem null_subtopic_not_rendered (subject : String) (d : SubtopicMap)
    (labels : List (Nat × String)) (h : namedOf d ≠ []) :
    subjectBlock subject d labels
      = subjectBlock subject (d.filter fun p => decide (p.1 ≠ none)) labels := by
  have hnf : ∀ e : SubtopicMap,
      namedOf (e.filter fun p => decide (p.1 ≠ none)) = namedOf e := by
    intro e
    induction e with
    | nil => rfl
    | cons p t ih =>
      obtain ⟨k, v⟩ := p
      cases k with
      | none =>
        rw [List.filter_cons,
          if_neg (show ¬ decide (((none, v) : Option String × List Nat).1 ≠ none) = true
            from Bool.false_ne_true)]
        rw [show namedOf ((none, v) :: t) = namedOf t from rfl]
        exact ih
      | some s =>
        rw [List.filter_cons,
          if_pos (show decide (((some s, v) : Option String × List Nat).1 ≠ none) = true
            from rfl)]
        rw [show namedOf ((some s, v) :: t) = (s, v) :: namedOf t from rfl]
        rw [show namedOf ((some s, v) :: List.filter _ t)
          = (s, v) :: namedOf (List.filter _ t) from rfl]
        rw [ih]
  have hnf := hnf d
  have hne : (namedOf d).isEmpty = false := by
    cases hn : namedOf d with
    | nil => exact absurd hn h
    | cons q t => rfl
  simp only [subjectBlock]
  rw [hnf]
  simp [hne]

/-- Witness for C10: chapter 5 lives only under the null key of
`nullOnlyMap`; dropping the null entry leaves the rendered block unchanged,
and the block carries no reference to chapter 5. -/
theorem null_subtopic_not_rendered_witness :
    subjectBlock "Alpha" nullOnlyMap []
        = subjectBlock "Alpha" (nullOnlyMap.filter fun p => decide (p.1 ≠ none)) []
    ∧ subjectBlock "Alpha" nullOnlyMap [] = ["\\textbf\x7bAlpha\x7d (alpha), 1, 2\\\\"] :=
  ⟨null_subtopic_not_rendered "Alpha" nullOnlyMap [] (by decide), by decide⟩

/-! ### Helper lemmas for the Pass-1 aggregation (C6) -/

theorem flatEntries_cons (r : P1Record) (t : List P1Record) :
    flatEntries (r :: t) = r.subjects ++ flatEntries t := rfl

theorem flatEntries_append (rs1 rs2 : List P1Record) :
    flatEntries (rs1 ++ rs2) = flatEntries rs1 ++ flatEntries rs2 := by
  unfold flatEntries
  rw [List.map_append, List.flatten_append]

theorem aggP1_eq_foldl_flat (rs : List P1Record) :
    aggP1 rs = (flatEntries rs).foldl p1AddEntry [] := by
  have main : ∀ (rs : List P1Record) (m : AggMap),
      rs.foldl (fun m r => r.subjects.foldl p1AddEntry m) m
        = (flatEntries rs).foldl p1AddEntry m := by
    intro rs
    induction rs with
    | nil => intro m; rfl
    | cons r t ih =>
      intro m
      rw [List.foldl_cons, ih, flatEntries_cons, List.foldl_append]
  exact main rs []

theorem specSubsE_cons (e : P1Entry) (l : List P1Entry) (key : String) :
    specSubsE (e :: l) key
      = if pyStrip e.subject ≠ "" ∧ pyLower (pyStrip e.subject) = key
        then normSubs e.subtopics ∪ specSubsE l key
        else specSubsE l key := rfl

theorem subtopicsAt_nil (key : String) : subtopicsAt [] key = ∅ := rfl

theorem subtopicsAt_p1AddEntry (m : AggMap) (e : P1Entry) (key : String) :
    subtopicsAt (p1AddEntry m e) key
      = if pyStrip e.subject ≠ "" ∧ pyLower (pyStrip e.subject) = key
        then subtopicsAt m key ∪ normSubs e.subtopics
        else subtopicsAt m key := by
  unfold p1AddEntry
  by_cases h1 : pyStrip e.subject = ""
  · simp [h1]
  · rw [if_neg h1]
    by_cases h2 : pyLower (pyStrip e.subject) = key
    · rw [if_pos ⟨h1, h2⟩]
      subst h2
      unfold subtopicsAt
      rw [dictFind_updEntry_self]
      cases hf : dictFind m (pyLower (pyStrip e.subject)) with
      | none => exact (Finset.empty_union _).symm
      | some pr => rfl
    · rw [if_neg (fun hc => h2 hc.2)]
      unfold subtopicsAt
      rw [dictFind_updEntry_ne _ _ _ _ _ (fun hh => h2 hh.symm)]

theorem subtopicsAt_foldl (entries : List P1Entry) (m : AggMap) (key : String) :
    subtopicsAt (entries.foldl p1AddEntry m) key
      = subtopicsAt m key ∪ specSubsE entries key := by
  induction entries generalizing m with
  | nil => simp [specSubsE]
  | cons e t ih =>
    rw [List.foldl_cons, ih, specSubsE_cons, subtopicsAt_p1AddEntry]
    by_cases h : pyStrip e.subject ≠ "" ∧ pyLower (pyStrip e.subject) = key
    · rw [if_pos h, if_pos h]
      ext x
      simp only [Finset.mem_union]
      tauto
    · rw [if_neg h, if_neg h]

theorem specSubsE_perm {l1 l2 : List P1Entry} (h : l1.Perm l2) (key : String) :
    specSubsE l1 key = specSubsE l2 key := by
  induction h with
  | nil => rfl
  | cons e h2 ih => rw [specSubsE_cons, specSubsE_cons, ih]
  | swap e1 e2 l =>
    rw [specSubsE_cons, specSubsE_cons, specSubsE_cons, specSubsE_cons]
    by_cases h1 : pyStrip e1.subject ≠ "" ∧ pyLower (pyStrip e1.subject) = key
    · by_cases h2 : pyStrip e2.subject ≠ "" ∧ pyLower (pyStrip e2.subject) = key
      · simp only [if_pos h1, if_pos h2]
        ext x
        simp only [Finset.mem_union]
        tauto
      · simp only [if_pos h1, if_neg h2]
    · by_cases h2 : pyStrip e2.subject ≠ "" ∧ pyLower (pyStrip e2.subject) = key
      · simp only [if_neg h1, if_pos h2]
      · simp only [if_neg h1, if_neg h2]
  | trans h1 h2 ih1 ih2 => rw [ih1, ih2]

theorem specSubsE_append (l1 l2 : List P1Entry) (key : String) :
    specSubsE (l1 ++ l2) key = specSubsE l1 key ∪ specSubsE l2 key := by
  induction l1 with
  | nil => simp [specSubsE]
  | cons e t ih =>
    rw [List.cons_append, specSubsE_cons, specSubsE_cons, ih]
    by_cases h : pyStrip e.subject ≠ "" ∧ pyLower (pyStrip e.subject) = key
    · rw [if_pos h, if_pos h]
      ext x
      simp only [Finset.mem_union]
      tauto
    · rw [if_neg h, if_neg h]

theorem keysOf_foldl_p1AddEntry_nodup (entries : List P1Entry) {m : AggMap}
    (hm : (keysOf m).Nodup) : (keysOf (entries.foldl p1AddEntry m)).Nodup := by
  induction entries generalizing m with
  | nil => exact hm
  | cons e t ih =>
    rw [List.foldl_cons]
    refine ih ?_
    unfold p1AddEntry
    by_cases h1 : pyStrip e.subject = ""
    · rw [if_pos h1]
      exact hm
    · rw [if_neg h1]
      exact nodup_keysOf_updEntry _ _ _ hm

theorem keysOf_foldl_p1AddEntry_mono (entries : List P1Entry) (m : AggMap) (k : String)
    (hk : k ∈ keysOf m) : k ∈ keysOf (entries.foldl p1AddEntry m) := by
  induction entries generalizing m with
  | nil => exact hk
  | cons e t ih =>
    rw [List.foldl_cons]
    refine ih _ ?_
    unfold p1AddEntry
    by_cases h1 : pyStrip e.subject = ""
    · rw [if_pos h1]
      exact hk
    · rw [if_neg h1]
      exact (mem_keysOf_updEntry _ _ _ _ _).2 (Or.inl hk)

theorem keysOf_foldl_p1AddEntry_mem (entries : List P1Entry) (m : AggMap)
    (e : P1Entry) (he : e ∈ entries) (hne : pyStrip e.subject ≠ "") :
    pyLower (pyStrip e.subject) ∈ keysOf (entries.foldl p1AddEntry m) := by
  induction entries generalizing m with
  | nil => cases he
  | cons e2 t ih =>
    rw [List.foldl_cons]
    rcases List.mem_cons.1 he with rfl | he
    · refine keysOf_foldl_p1AddEntry_mono t _ _ ?_
      unfold p1AddEntry
      rw [if_neg hne]
      exact (mem_keysOf_updEntry _ _ _ _ _).2 (Or.inr rfl)
    · exact ih _ he

/-- C6: the Pass-1 candidate aggregation is a case-insensitive-key union.
The subtopic set accumulated for a key is exactly the union of the
normalized subtopic sets of every entry whose stripped subject lowercases
to that key; it is invariant under reordering of the entries and under
duplicating the whole input; keys are unique, so entries whose subjects
differ only in letter case land in a single accumulator entry. -/
theorem aggregation_union_properties :
    (∀ (rs : List P1Record) (key : String),
        subtopicsAt (aggP1 rs) key = specSubsE (flatEntries rs) key)
    ∧ (∀ rs1 rs2 : List P1Record, (flatEntries rs1).Perm (flatEntries rs2) →
        ∀ key, subtopicsAt (aggP1 rs1) key = subtopicsAt (aggP1 rs2) key)
    ∧ (∀ (rs : List P1Record) (key : String),
        subtopicsAt (aggP1 (rs ++ rs)) key = subtopicsAt (aggP1 rs) key)
    ∧ (∀ rs : List P1Record, (keysOf (aggP1 rs)).Nodup)
    ∧ (∀ (rs : List P1Record) (e : P1Entry), e ∈ flatEntries rs →
        pyStrip e.subject ≠ "" →
        pyLower (pyStrip e.subject) ∈ keysOf (aggP1 rs)) := by
  have hchar : ∀ (rs : List P1Record) (key : String),
      subtopicsAt (aggP1 rs) key = specSubsE (flatEntries rs) key := by
    intro rs key
    rw [aggP1_eq_foldl_flat, subtopicsAt_foldl, subtopicsAt_nil, Finset.empty_union]
  refine ⟨hchar, ?_, ?_, ?_, ?_⟩
  · intro rs1 rs2 hperm key
    rw [hchar, hchar, specSubsE_perm hperm]
  · intro rs key
    rw [hchar, hchar, flatEntries_append, specSubsE_append, Finset.union_idempotent]
  · intro rs
    rw [aggP1_eq_foldl_flat]
    exact keysOf_foldl_p1AddEntry_nodup _ (by simp [keysOf])
  · intro rs e he hne
    rw [aggP1_eq_foldl_flat]
    exact keysOf_foldl_p1AddEntry_mem _ _ e he hne

/-- Witness for C6: the two spellings `Gravity` and `gravity` collapse to
one key whose subtopic set is the normalized union, in either record
order, and duplicating a record changes nothing. -/
theorem aggregation_union_properties_witness :
    subtopicsAt (aggP1 [aggRecA, aggRecB]) "gravity"
        = specSubsE (flatEntries [aggRecA, aggRecB]) "gravity"
    ∧ subtopicsAt (aggP1 [aggRecB, aggRecA]) "gravity"
        = subtopicsAt (aggP1 [aggRecA, aggRecB]) "gravity"
    ∧ subtopicsAt (aggP1 ([aggRecA] ++ [aggRecA])) "gravity"
        = subtopicsAt (aggP1 [aggRecA]) "gravity"
    ∧ subtopicsAt (aggP1 [aggRecA, aggRecB]) "gravity"
        = {"tides", "orbits", "waves"} := by
  have h := aggregation_union_properties
  exact ⟨h.1 [aggRecA, aggRecB] "gravity",
    h.2.1 [aggRecB, aggRecA] [aggRecA, aggRecB] (by decide) "gravity",
    h.2.2.1 [aggRecA] "gravity",
    by decide⟩

/-! ### Helper lemmas for the normalization pass (C3, C7) -/

theorem mem_getD_mergeIntoNew_self (n : SubtopicMap) (k : Option String) (chs : List Nat) :
    k ∈ keysOf (mergeIntoNew n k chs)
    ∧ ∀ c ∈ chs, c ∈ dictGetD (mergeIntoNew n k chs) k [] := by
  constructor
  · exact (mem_keysOf_updEntry _ _ _ _ _).2 (Or.inr rfl)
  · intro c hc
    unfold mergeIntoNew dictGetD
    rw [dictFind_updEntry_self]
    cases hf : dictFind n k with
    | none =>
      simp only [Option.elim, Option.getD]
      exact (mem_foldl_addUnique _ _ _).2 (Or.inr hc)
    | some o =>
      simp only [Option.elim, Option.getD]
      exact (mem_foldl_addUnique _ _ _).2 (Or.inr hc)

theorem mem_getD_mergeIntoNew_mono (n : SubtopicMap) (k k1 : Option String)
    (chs : List Nat) :
    (k1 ∈ keysOf n → k1 ∈ keysOf (mergeIntoNew n k chs))
    ∧ ∀ c, c ∈ dictGetD n k1 [] → c ∈ dictGetD (mergeIntoNew n k chs) k1 [] := by
  constructor
  · intro h
    exact (mem_keysOf_updEntry _ _ _ _ _).2 (Or.inl h)
  · intro c hc
    by_cases hk : k1 = k
    · subst hk
      unfold dictGetD at hc
      unfold mergeIntoNew dictGetD
      rw [dictFind_updEntry_self]
      cases hf : dictFind n k1 with
      | none =>
        rw [hf] at hc
        simp [Option.getD] at hc
      | some o =>
        rw [hf] at hc
        simp only [Option.getD] at hc ⊢
        simp only [Option.elim]
        exact (mem_foldl_addUnique _ _ _).2 (Or.inl hc)
    · unfold mergeIntoNew dictGetD
      rw [dictFind_updEntry_ne _ _ _ _ _ hk]
      exact hc

theorem mem_getD_mergeBackOne_self (d : SubtopicMap) (k : Option String) (v : List Nat) :
    k ∈ keysOf (mergeBackOne d k v)
    ∧ ∀ c ∈ v, c ∈ dictGetD (mergeBackOne d k v) k [] := by
  constructor
  · exact (mem_keysOf_updEntry _ _ _ _ _).2 (Or.inr rfl)
  · intro c hc
    unfold mergeBackOne dictGetD
    rw [dictFind_updEntry_self]
    cases hf : dictFind d k with
    | none =>
      simp only [Option.elim, Option.getD]
      exact hc
    | some o =>
      simp only [Option.elim, Option.getD]
      exact (mem_foldl_addUnique _ _ _).2 (Or.inr hc)

theorem mem_getD_mergeBackOne_mono (d : SubtopicMap) (k k1 : Option String)
    (v : List Nat) :
    (k1 ∈ keysOf d → k1 ∈ keysOf (mergeBackOne d k v))
    ∧ ∀ c, c ∈ dictGetD d k1 [] → c ∈ dictGetD (mergeBackOne d k v) k1 [] := by
  constructor
  · intro h
    exact (mem_keysOf_updEntry _ _ _ _ _).2 (Or.inl h)
  · intro c hc
    by_cases hk : k1 = k
    · subst hk
      unfold dictGetD at hc
      unfold mergeBackOne dictGetD
      rw [dictFind_updEntry_self]
      cases hf : dictFind d k1 with
      | none =>
        rw [hf] at hc
        simp [Option.getD] at hc
      | some o =>
        rw [hf] at hc
        simp only [Option.getD] at hc ⊢
        simp only [Option.elim]
        exact (mem_foldl_addUnique _ _ _).2 (Or.inl hc)
    · unfold mergeBackOne dictGetD
      rw [dictFind_updEntry_ne _ _ _ _ _ hk]
      exact hc

theorem foldl_mergeIntoNew_preserves (ps : List String) (chs : List Nat)
    (n : SubtopicMap) (k1 : Option String) :
    (k1 ∈ keysOf n →
      k1 ∈ keysOf (ps.foldl (fun n p => mergeIntoNew n (some p) chs) n))
    ∧ ∀ c, c ∈ dictGetD n k1 [] →
      c ∈ dictGetD (ps.foldl (fun n p => mergeIntoNew n (some p) chs) n) k1 [] := by
  induction ps generalizing n with
  | nil => exact ⟨id, fun c => id⟩
  | cons p t ih =>
    constructor
    · intro h
      exact ((ih _).1 ((mem_getD_mergeIntoNew_mono _ _ _ _).1 h))
    · intro c hc
      exact ((ih _).2 c ((mem_getD_mergeIntoNew_mono _ _ _ _).2 c hc))

theorem foldl_mergeIntoNew_contrib (ps : List String) (chs : List Nat) :
    ∀ (n : SubtopicMap), ∀ p ∈ ps,
      (some p) ∈ keysOf (ps.foldl (fun n p => mergeIntoNew n (some p) chs) n)
      ∧ ∀ c ∈ chs,
        c ∈ dictGetD (ps.foldl (fun n p => mergeIntoNew n (some p) chs) n) (some p) [] := by
  induction ps with
  | nil => intro n p hp; cases hp
  | cons q t ih =>
    intro n p hp
    rcases List.mem_cons.1 hp with rfl | hp
    · rw [List.foldl_cons]
      constructor
      · exact (foldl_mergeIntoNew_preserves t chs _ _).1
          (mem_getD_mergeIntoNew_self n (some p) chs).1
      · intro c hc
        exact (foldl_mergeIntoNew_preserves t chs _ _).2 c
          ((mem_getD_mergeIntoNew_self n (some p) chs).2 c hc)
    · rw [List.foldl_cons]
      exact ih _ p hp

theorem foldl_mergeIntoNew_keys_excl (ps : List String) (chs : List Nat)
    (s : String) :
    ∀ (n : SubtopicMap), some s ∉ keysOf n → (∀ p ∈ ps, p ≠ s) →
      some s ∉ keysOf (ps.foldl (fun n p => mergeIntoNew n (some p) chs) n) := by
  induction ps with
  | nil => intro n h _; exact h
  | cons q t ih =>
    intro n h hps
    rw [List.foldl_cons]
    refine ih _ ?_ fun p hp => hps p (List.mem_cons_of_mem _ hp)
    intro hmem
    rcases (mem_keysOf_updEntry _ _ _ _ _).1 hmem with h2 | h2
    · exact h h2
    · exact hps q (List.mem_cons_self _ _) (Option.some_inj.1 h2).symm

theorem normStep_none (st : SubtopicMap × SubtopicMap) (chs : List Nat) :
    normStep st (none, chs) = (st.1, mergeIntoNew st.2 none chs) := rfl

theorem normStep_kept (st : SubtopicMap × SubtopicMap) (s : String) (chs : List Nat)
    (h1 : s ≠ "" ∧ isKept s = true) :
    normStep st (some s, chs) = (st.1, mergeIntoNew st.2 (some s) chs) := by
  simp only [normStep]
  rw [if_pos h1]

theorem normStep_split (st : SubtopicMap × SubtopicMap) (s : String) (chs : List Nat)
    (h1 : ¬(s ≠ "" ∧ isKept s = true)) (h2 : s ≠ "" ∧ pyIn " and " s = true) :
    normStep st (some s, chs)
      = (dictDelete st.1 (some s),
         ((pySplit " and " s).map pyStrip).foldl
           (fun n p => mergeIntoNew n (some p) chs) st.2) := by
  simp only [normStep]
  rw [if_neg h1, if_pos h2]

theorem normStep_else (st : SubtopicMap × SubtopicMap) (s : String) (chs : List Nat)
    (h1 : ¬(s ≠ "" ∧ isKept s = true)) (h2 : ¬(s ≠ "" ∧ pyIn " and " s = true)) :
    normStep st (some s, chs) = (st.1, mergeIntoNew st.2 (some s) chs) := by
  simp only [normStep]
  rw [if_neg h1, if_neg h2]

theorem normStep_preserves_new (st : SubtopicMap × SubtopicMap)
    (item : Option String × List Nat) (k1 : Option String) :
    (k1 ∈ keysOf st.2 → k1 ∈ keysOf (normStep st item).2)
    ∧ ∀ c, c ∈ dictGetD st.2 k1 [] → c ∈ dictGetD (normStep st item).2 k1 [] := by
  obtain ⟨k2, chs2⟩ := item
  cases k2 with
  | none =>
    rw [normStep_none]
    exact mem_getD_mergeIntoNew_mono st.2 none k1 chs2
  | some s2 =>
    by_cases c1 : s2 ≠ "" ∧ isKept s2 = true
    · rw [normStep_kept _ _ _ c1]
      exact mem_getD_mergeIntoNew_mono st.2 (some s2) k1 chs2
    · by_cases c2 : s2 ≠ "" ∧ pyIn " and " s2 = true
      · rw [normStep_split _ _ _ c1 c2]
        exact foldl_mergeIntoNew_preserves _ chs2 st.2 k1
      · rw [normStep_else _ _ _ c1 c2]
        exact mem_getD_mergeIntoNew_mono st.2 (some s2) k1 chs2

theorem foldl_normStep_preserves_new (l : List (Option String × List Nat)) :
    ∀ (st : SubtopicMap × SubtopicMap) (k1 : Option String),
      (k1 ∈ keysOf st.2 → k1 ∈ keysOf (l.foldl normStep st).2)
      ∧ ∀ c, c ∈ dictGetD st.2 k1 [] → c ∈ dictGetD (l.foldl normStep st).2 k1 [] := by
  induction l with
  | nil => intro st k1; exact ⟨id, fun c => id⟩
  | cons item t ih =>
    intro st k1
    rw [List.foldl_cons]
    constructor
    · intro h
      exact (ih _ k1).1 ((normStep_preserves_new st item k1).1 h)
    · intro c hc
      exact (ih _ k1).2 c ((normStep_preserves_new st item k1).2 c hc)

theorem foldl_normStep_split_contrib (s : String) (chs : List Nat)
    (hne : s ≠ "") (hk : isKept s = false) (ha : pyIn " and " s = true) :
    ∀ (l : List (Option String × List Nat)) (st : SubtopicMap × SubtopicMap),
      (some s, chs) ∈ l →
      ∀ p ∈ (pySplit " and " s).map pyStrip,
        (some p) ∈ keysOf (l.foldl normStep st).2
        ∧ ∀ c ∈ chs, c ∈ dictGetD (l.foldl normStep st).2 (some p) [] := by
  intro l
  induction l with
  | nil => intro st hmem; cases hmem
  | cons item t ih =>
    intro st hmem p hp
    rw [List.foldl_cons]
    rcases List.mem_cons.1 hmem with heq | hmem2
    · rw [← heq, normStep_split _ _ _ (fun hc => Bool.false_ne_true (hk ▸ hc.2)) ⟨hne, ha⟩]
      constructor
      · exact (foldl_normStep_preserves_new t _ _).1
          ((foldl_mergeIntoNew_contrib _ chs _ p hp).1)
      · intro c hc
        exact (foldl_normStep_preserves_new t _ _).2 c
          ((foldl_mergeIntoNew_contrib _ chs _ p hp).2 c hc)
    · exact ih _ hmem2 p hp

theorem foldl_normStep_kept_contrib (s : String) (chs : List Nat)
    (hk : isKept s = true) :
    ∀ (l : List (Option String × List Nat)) (st : SubtopicMap × SubtopicMap),
      (some s, chs) ∈ l →
      (some s) ∈ keysOf (l.foldl normStep st).2
      ∧ ∀ c ∈ chs, c ∈ dictGetD (l.foldl normStep st).2 (some s) [] := by
  have hne : s ≠ "" := by
    intro he
    rw [he] at hk
    exact absurd hk (by decide)
  intro l
  induction l with
  | nil => intro st hmem; cases hmem
  | cons item t ih =>
    intro st hmem
    rw [List.foldl_cons]
    rcases List.mem_cons.1 hmem with heq | hmem2
    · rw [← heq, normStep_kept _ _ _ ⟨hne, hk⟩]
      constructor
      · exact (foldl_normStep_preserves_new t _ _).1
          (mem_getD_mergeIntoNew_self st.2 (some s) chs).1
      · intro c hc
        exact (foldl_normStep_preserves_new t _ _).2 c
          ((mem_getD_mergeIntoNew_self st.2 (some s) chs).2 c hc)
    · exact ih _ hmem2

theorem normStep_fst_keys (st : SubtopicMap × SubtopicMap)
    (item : Option String × List Nat) (k : Option String) (h : k ∉ keysOf st.1) :
    k ∉ keysOf (normStep st item).1 := by
  obtain ⟨k2, chs2⟩ := item
  cases k2 with
  | none =>
    rw [normStep_none]
    exact h
  | some s2 =>
    by_cases c1 : s2 ≠ "" ∧ isKept s2 = true
    · rw [normStep_kept _ _ _ c1]
      exact h
    · by_cases c2 : s2 ≠ "" ∧ pyIn " and " s2 = true
      · rw [normStep_split _ _ _ c1 c2]
        intro hm
        exact h ((keysOf_dictDelete _ _ _).1 hm).1
      · rw [normStep_else _ _ _ c1 c2]
        exact h

theorem foldl_normStep_fst_keys (l : List (Option String × List Nat)) :
    ∀ (st : SubtopicMap × SubtopicMap) (k : Option String),
      k ∉ keysOf st.1 → k ∉ keysOf (l.foldl normStep st).1 := by
  induction l with
  | nil => intro st k h; exact h
  | cons item t ih =>
    intro st k h
    rw [List.foldl_cons]
    exact ih _ k (normStep_fst_keys st item k h)

theorem foldl_normStep_fst_del (s : String) (chs : List Nat)
    (hne : s ≠ "") (hk : isKept s = false) (ha : pyIn " and " s = true) :
    ∀ (l : List (Option String × List Nat)) (st : SubtopicMap × SubtopicMap),
      (some s, chs) ∈ l → some s ∉ keysOf (l.foldl normStep st).1 := by
  intro l
  induction l with
  | nil => intro st hmem; cases hmem
  | cons item t ih =>
    intro st hmem
    rw [List.foldl_cons]
    by_cases hkey : item.1 = some s
    · obtain ⟨k2, chs2⟩ := item
      simp only at hkey
      subst hkey
      rw [normStep_split _ _ _ (fun hc => Bool.false_ne_true (hk ▸ hc.2)) ⟨hne, ha⟩]
      apply foldl_normStep_fst_keys
      intro hm
      exact ((keysOf_dictDelete _ _ _).1 hm).2 rfl
    · have hmem2 : (some s, chs) ∈ t := by
        rcases List.mem_cons.1 hmem with heq | h2
        · exfalso
          apply hkey
          rw [← heq]
        · exact h2
      exact ih _ hmem2

theorem normStep_snd_keys_excl (s : String) (hne : s ≠ "") (hk : isKept s = false)
    (ha : pyIn " and " s = true) (st : SubtopicMap × SubtopicMap)
    (item : Option String × List Nat) (h : some s ∉ keysOf st.2) :
    some s ∉ keysOf (normStep st item).2 := by
  obtain ⟨k2, chs2⟩ := item
  cases k2 with
  | none =>
    rw [normStep_none]
    intro hm
    rcases (mem_keysOf_updEntry _ _ _ _ _).1 hm with h2 | h2
    · exact h h2
    · exact Option.noConfusion h2
  | some s2 =>
    by_cases c1 : s2 ≠ "" ∧ isKept s2 = true
    · rw [normStep_kept _ _ _ c1]
      intro hm
      rcases (mem_keysOf_updEntry _ _ _ _ _).1 hm with h2 | h2
      · exact h h2
      · have hs : s = s2 := Option.some_inj.1 h2
        rw [← hs] at c1
        exact Bool.false_ne_true (hk ▸ c1.2)
    · by_cases c2 : s2 ≠ "" ∧ pyIn " and " s2 = true
      · rw [normStep_split _ _ _ c1 c2]
        refine foldl_mergeIntoNew_keys_excl _ chs2 s st.2 h ?_
        intro p hp hps
        have hfalse := pyIn_split_part " and " s2 (by decide) p hp
        rw [hps, ha] at hfalse
        exact Bool.noConfusion hfalse
      · rw [normStep_else _ _ _ c1 c2]
        intro hm
        rcases (mem_keysOf_updEntry _ _ _ _ _).1 hm with h2 | h2
        · exact h h2
        · have hs : s = s2 := Option.some_inj.1 h2
          rw [← hs] at c2
          exact c2 ⟨hne, ha⟩

theorem foldl_normStep_snd_keys_excl (s : String) (hne : s ≠ "")
    (hk : isKept s = false) (ha : pyIn " and " s = true)
    (l : List (Option String × List Nat)) :
    ∀ (st : SubtopicMap × SubtopicMap), some s ∉ keysOf st.2 →
      some s ∉ keysOf (l.foldl normStep st).2 := by
  induction l with
  | nil => intro st h; exact h
  | cons item t ih =>
    intro st h
    rw [List.foldl_cons]
    exact ih _ (normStep_snd_keys_excl s hne hk ha st item h)

theorem foldl_mergeBackOne_preserves (n : SubtopicMap) :
    ∀ (dd : SubtopicMap) (k1 : Option String),
      (k1 ∈ keysOf dd →
        k1 ∈ keysOf (n.foldl (fun dd p => mergeBackOne dd p.1 p.2) dd))
      ∧ ∀ c, c ∈ dictGetD dd k1 [] →
        c ∈ dictGetD (n.foldl (fun dd p => mergeBackOne dd p.1 p.2) dd) k1 [] := by
  induction n with
  | nil => intro dd k1; exact ⟨id, fun c => id⟩
  | cons q t ih =>
    intro dd k1
    rw [List.foldl_cons]
    constructor
    · intro h
      exact (ih _ k1).1 ((mem_getD_mergeBackOne_mono dd q.1 k1 q.2).1 h)
    · intro c hc
      exact (ih _ k1).2 c ((mem_getD_mergeBackOne_mono dd q.1 k1 q.2).2 c hc)

theorem foldl_mergeBackOne_contrib (n : SubtopicMap) :
    ∀ (dd : SubtopicMap) (k1 : Option String) (v : List Nat), (k1, v) ∈ n →
      k1 ∈ keysOf (n.foldl (fun dd p => mergeBackOne dd p.1 p.2) dd)
      ∧ ∀ c ∈ v, c ∈ dictGetD (n.foldl (fun dd p => mergeBackOne dd p.1 p.2) dd) k1 [] := by
  induction n with
  | nil => intro dd k1 v hmem; cases hmem
  | cons q t ih =>
    intro dd k1 v hmem
    rw [List.foldl_cons]
    rcases List.mem_cons.1 hmem with heq | hmem2
    · rw [← heq]
      constructor
      · exact (foldl_mergeBackOne_preserves t _ _).1
          (mem_getD_mergeBackOne_self dd k1 v).1
      · intro c hc
        exact (foldl_mergeBackOne_preserves t _ _).2 c
          ((mem_getD_mergeBackOne_self dd k1 v).2 c hc)
    · exact ih _ k1 v hmem2

theorem foldl_mergeBackOne_keys_excl (n : SubtopicMap) :
    ∀ (dd : SubtopicMap) (k : Option String), k ∉ keysOf dd → k ∉ keysOf n →
      k ∉ keysOf (n.foldl (fun dd p => mergeBackOne dd p.1 p.2) dd) := by
  induction n with
  | nil => intro dd k h _; exact h
  | cons q t ih =>
    intro dd k h hn
    rw [List.foldl_cons]
    have hq : k ≠ q.1 := by
      intro he
      exact hn (by rw [he]; exact List.mem_cons_self _ _)
    refine ih _ k ?_ fun hm => hn (List.mem_cons_of_mem _ hm)
    intro hm
    rcases (mem_keysOf_updEntry _ _ _ _ _).1 hm with h2 | h2
    · exact h h2
    · exact hq h2

/-- C3: in the per-subject normalization pass, every non-null subtopic key
containing the literal substring `" and "` that does not case-insensitively
match the allow-list is removed from the mapping, and each trimmed
constituent part becomes (or merges into) its own subtopic key whose
chapter list includes every chapter of the original combined key;
allow-listed keys are kept with at least their original chapters. -/
theorem subtopic_split_normalization (d : SubtopicMap) :
    (∀ s chs, (some s, chs) ∈ d → s ≠ "" → isKept s = false → pyIn " and " s = true →
       (some s) ∉ keysOf (normalizeSubtopics d)
       ∧ ∀ p ∈ (pySplit " and " s).map pyStrip,
           ∃ chs2, (some p, chs2) ∈ normalizeSubtopics d ∧ ∀ c ∈ chs, c ∈ chs2)
    ∧ (∀ s chs, (some s, chs) ∈ d → isKept s = true →
        ∃ chs2, (some s, chs2) ∈ normalizeSubtopics d ∧ ∀ c ∈ chs, c ∈ chs2) := by
  constructor
  · intro s chs hmem hne hk ha
    constructor
    · show some s ∉ keysOf
        ((d.foldl normStep (d, [])).2.foldl
          (fun dd p => mergeBackOne dd p.1 p.2) (d.foldl normStep (d, [])).1)
      refine foldl_mergeBackOne_keys_excl _ _ _ ?_ ?_
      · exact foldl_normStep_fst_del s chs hne hk ha d (d, []) hmem
      · exact foldl_normStep_snd_keys_excl s hne hk ha d (d, []) (List.not_mem_nil _)
    · intro p hp
      have hc := foldl_normStep_split_contrib s chs hne hk ha d (d, []) hmem p hp
      obtain ⟨v, hv⟩ := dictFind_isSome_of_mem_keys hc.1
      have hpair : (some p, v) ∈ (d.foldl normStep (d, [])).2 := dictFind_mem hv
      have hchs : ∀ c ∈ chs, c ∈ v := by
        intro c hcc
        have h2 := hc.2 c hcc
        unfold dictGetD at h2
        rw [hv] at h2
        exact h2
      have hfin := foldl_mergeBackOne_contrib (d.foldl normStep (d, [])).2
        (d.foldl normStep (d, [])).1 (some p) v hpair
      obtain ⟨w, hw⟩ := dictFind_isSome_of_mem_keys hfin.1
      refine ⟨w, ?_, ?_⟩
      · show (some p, w) ∈
          ((d.foldl normStep (d, [])).2.foldl
            (fun dd p => mergeBackOne dd p.1 p.2) (d.foldl normStep (d, [])).1)
        exact dictFind_mem hw
      · intro c hcc
        have h3 := hfin.2 c (hchs c hcc)
        unfold dictGetD at h3
        rw [hw] at h3
        exact h3
  · intro s chs hmem hk
    have hc := foldl_normStep_kept_contrib s chs hk d (d, []) hmem
    obtain ⟨v, hv⟩ := dictFind_isSome_of_mem_keys hc.1
    have hpair : (some s, v) ∈ (d.foldl normStep (d, [])).2 := dictFind_mem hv
    have hchs : ∀ c ∈ chs, c ∈ v := by
      intro c hcc
      have h2 := hc.2 c hcc
      unfold dictGetD at h2
      rw [hv] at h2
      exact h2
    have hfin := foldl_mergeBackOne_contrib (d.foldl normStep (d, [])).2
      (d.foldl normStep (d, [])).1 (some s) v hpair
    obtain ⟨w, hw⟩ := dictFind_isSome_of_mem_keys hfin.1
    refine ⟨w, ?_, ?_⟩
    · show (some s, w) ∈
        ((d.foldl normStep (d, [])).2.foldl
          (fun dd p => mergeBackOne dd p.1 p.2) (d.foldl normStep (d, [])).1)
      exact dictFind_mem hw
    · intro c hcc
      have h3 := hfin.2 c (hchs c hcc)
      unfold dictGetD at h3
      rw [hw] at h3
      exact h3

/-- Witness for C3: the subtopic `dark matter and dark energy` with
chapters 3 and 7 is split into `dark matter` and `dark energy`, each with
chapters 3 and 7, and the combined key is absent from the normalized map,
which evaluates exactly as the claim predicts. -/
theorem subtopic_split_normalization_witness :
    ((some "dark matter and dark energy") ∉ keysOf (normalizeSubtopics darkMap))
    ∧ (∃ chs2, (some "dark matter", chs2) ∈ normalizeSubtopics darkMap
        ∧ ∀ c ∈ [3, 7], c ∈ chs2)
    ∧ (∃ chs2, (some "dark energy", chs2) ∈ normalizeSubtopics darkMap
        ∧ ∀ c ∈ [3, 7], c ∈ chs2)
    ∧ normalizeSubtopics darkMap
        = [(some "dark matter", [3, 7]), (some "dark energy", [3, 7])] := by
  have h := (subtopic_split_normalization darkMap).1 "dark matter and dark energy"
    [3, 7] (by decide) (by decide) (by decide) (by decide)
  exact ⟨h.1, h.2 "dark matter" (by decide), h.2 "dark energy" (by decide), by decide⟩

/-! ### Helper lemmas for the index invariants (C7) -/

theorem foldl_preserve {α β : Type} (f : β → α → β) (P : β → Prop)
    (hf : ∀ b a, P b → P (f b a)) : ∀ (l : List α) (b : β), P b → P (l.foldl f b) := by
  intro l
  induction l with
  | nil => intro b h; exact h
  | cons x t ih =>
    intro b h
    rw [List.foldl_cons]
    exact ih _ (hf b x h)

theorem matchApproved_mem (approved : List Candidate) (subject ms : String)
    (h : matchApproved approved subject = some ms) : ∃ a ∈ approved, ms = a.subject := by
  unfold matchApproved at h
  cases he : approved.find? (exactMatchB · subject) with
  | some a =>
    rw [he] at h
    exact ⟨a, List.mem_of_find?_eq_some he, (Option.some_inj.1 h).symm⟩
  | none =>
    rw [he] at h
    cases hs : approved.find? (substrMatchB · subject) with
    | some a =>
      rw [hs] at h
      exact ⟨a, List.mem_of_find?_eq_some hs, (Option.some_inj.1 h).symm⟩
    | none =>
      rw [hs] at h
      exact Option.noConfusion h

theorem addTag_preserve_keys (approved : List Candidate) (ch : Nat) (tag : Tag)
    (idx : IndexMap) (h : ∀ p ∈ idx, ∃ a ∈ approved, p.1 = a.subject) :
    ∀ p ∈ addTag approved idx ch tag, ∃ a ∈ approved, p.1 = a.subject := by
  simp only [addTag]
  by_cases h1 : pyStrip tag.subject = ""
  · rw [if_pos h1]
    exact h
  · rw [if_neg h1]
    cases hm : matchApproved approved (pyStrip tag.subject) with
    | none => exact h
    | some ms =>
      intro p hp
      rcases mem_updEntry_cases hp with h2 | ⟨h2, _⟩
      · exact h p h2
      · rcases matchApproved_mem _ _ _ hm with ⟨a, ha, he⟩
        exact ⟨a, ha, by rw [h2, he]⟩

theorem buildIndexAccum_keys (approved : List Candidate) (results : List ChapterResult) :
    ∀ p ∈ buildIndexAccum approved results, ∃ a ∈ approved, p.1 = a.subject := by
  unfold buildIndexAccum
  refine foldl_preserve _ (fun idx : IndexMap => ∀ p ∈ idx, ∃ a ∈ approved, p.1 = a.subject)
    ?_ results [] ?_
  · intro idx r h
    exact foldl_preserve _ (fun idx : IndexMap => ∀ p ∈ idx, ∃ a ∈ approved, p.1 = a.subject)
      (fun idx e h2 => addTag_preserve_keys approved r.chapter_num e idx h2)
      r.entries idx h
  · intro p hp
    cases hp

theorem addTag_preserve_nodup (approved : List Candidate) (ch : Nat) (tag : Tag)
    (idx : IndexMap) (h : ∀ p ∈ idx, ∀ q ∈ p.2, q.2.Nodup) :
    ∀ p ∈ addTag approved idx ch tag, ∀ q ∈ p.2, q.2.Nodup := by
  simp only [addTag]
  by_cases h1 : pyStrip tag.subject = ""
  · rw [if_pos h1]
    exact h
  · rw [if_neg h1]
    cases hm : matchApproved approved (pyStrip tag.subject) with
    | none => exact h
    | some ms =>
      intro p hp q hq
      rcases mem_updEntry_cases hp with h2 | ⟨h2, h3 | ⟨d0, hd0, h3⟩⟩
      · exact h p h2 q hq
      · rw [h3] at hq
        rcases List.mem_singleton.1 hq with rfl
        exact List.nodup_singleton _
      · rw [h3] at hq
        rcases mem_updEntry_cases hq with h4 | ⟨h4, h5 | ⟨o, ho, h5⟩⟩
        · exact h (ms, d0) hd0 q h4
        · rw [h5]
          exact List.nodup_singleton _
        · rw [h5]
          exact nodup_addUnique _ (h (ms, d0) hd0 (subtopicKey tag.subtopic, o) ho)

theorem buildIndexAccum_nodup (approved : List Candidate) (results : List ChapterResult) :
    ∀ p ∈ buildIndexAccum approved results, ∀ q ∈ p.2, q.2.Nodup := by
  unfold buildIndexAccum
  refine foldl_preserve _ (fun idx : IndexMap => ∀ p ∈ idx, ∀ q ∈ p.2, q.2.Nodup)
    ?_ results [] ?_
  · intro idx r h
    exact foldl_preserve _ (fun idx : IndexMap => ∀ p ∈ idx, ∀ q ∈ p.2, q.2.Nodup)
      (fun idx e h2 => addTag_preserve_nodup approved r.chapter_num e idx h2)
      r.entries idx h
  · intro p hp
    cases hp

theorem valuesNodup_mergeIntoNew (n : SubtopicMap) (k : Option String) (chs : List Nat)
    (h : ∀ q ∈ n, q.2.Nodup) : ∀ q ∈ mergeIntoNew n k chs, q.2.Nodup := by
  intro q hq
  rcases mem_updEntry_cases hq with h2 | ⟨h2, h3 | ⟨o, ho, h3⟩⟩
  · exact h q h2
  · rw [h3]
    exact nodup_foldl_addUnique _ List.nodup_nil
  · rw [h3]
    exact nodup_foldl_addUnique _ (h (k, o) ho)

theorem valuesNodup_foldl_mergeIntoNew (ps : List String) (chs : List Nat) :
    ∀ n : SubtopicMap, (∀ q ∈ n, q.2.Nodup) →
      ∀ q ∈ ps.foldl (fun n p => mergeIntoNew n (some p) chs) n, q.2.Nodup := by
  induction ps with
  | nil => intro n h; exact h
  | cons p t ih =>
    intro n h
    rw [List.foldl_cons]
    exact ih _ (valuesNodup_mergeIntoNew n (some p) chs h)

theorem valuesNodup_normStep (st : SubtopicMap × SubtopicMap)
    (item : Option String × List Nat) (h1 : ∀ q ∈ st.1, q.2.Nodup)
    (h2 : ∀ q ∈ st.2, q.2.Nodup) :
    (∀ q ∈ (normStep st item).1, q.2.Nodup) ∧ (∀ q ∈ (normStep st item).2, q.2.Nodup) := by
  obtain ⟨k2, chs2⟩ := item
  cases k2 with
  | none =>
    rw [normStep_none]
    exact ⟨h1, valuesNodup_mergeIntoNew st.2 none chs2 h2⟩
  | some s2 =>
    by_cases c1 : s2 ≠ "" ∧ isKept s2 = true
    · rw [normStep_kept _ _ _ c1]
      exact ⟨h1, valuesNodup_mergeIntoNew st.2 (some s2) chs2 h2⟩
    · by_cases c2 : s2 ≠ "" ∧ pyIn " and " s2 = true
      · rw [normStep_split _ _ _ c1 c2]
        refine ⟨?_, valuesNodup_foldl_mergeIntoNew _ chs2 st.2 h2⟩
        intro q hq
        exact h1 q ((mem_dictDelete _ _ _).1 hq).1
      · rw [normStep_else _ _ _ c1 c2]
        exact ⟨h1, valuesNodup_mergeIntoNew st.2 (some s2) chs2 h2⟩

theorem valuesNodup_foldl_normStep (l : List (Option String × List Nat)) :
    ∀ st : SubtopicMap × SubtopicMap, (∀ q ∈ st.1, q.2.Nodup) → (∀ q ∈ st.2, q.2.Nodup) →
      (∀ q ∈ (l.foldl normStep st).1, q.2.Nodup)
      ∧ (∀ q ∈ (l.foldl normStep st).2, q.2.Nodup) := by
  induction l with
  | nil => intro st h1 h2; exact ⟨h1, h2⟩
  | cons item t ih =>
    intro st h1 h2
    rw [List.foldl_cons]
    have hs := valuesNodup_normStep st item h1 h2
    exact ih _ hs.1 hs.2

theorem valuesNodup_mergeBackOne (dd : SubtopicMap) (k : Option String) (v : List Nat)
    (h : ∀ q ∈ dd, q.2.Nodup) (hv : v.Nodup) : ∀ q ∈ mergeBackOne dd k v, q.2.Nodup := by
  intro q hq
  rcases mem_updEntry_cases hq with h2 | ⟨h2, h3 | ⟨o, ho, h3⟩⟩
  · exact h q h2
  · rw [h3]
    exact hv
  · rw [h3]
    exact nodup_foldl_addUnique _ (h (k, o) ho)

theorem valuesNodup_foldl_mergeBackOne (n : SubtopicMap) :
    ∀ dd : SubtopicMap, (∀ q ∈ dd, q.2.Nodup) → (∀ q ∈ n, q.2.Nodup) →
      ∀ q ∈ n.foldl (fun dd p => mergeBackOne dd p.1 p.2) dd, q.2.Nodup := by
  induction n with
  | nil => intro dd h _; exact h
  | cons q0 t ih =>
    intro dd h hn
    rw [List.foldl_cons]
    refine ih _ ?_ fun q hq => hn q (List.mem_cons_of_mem _ hq)
    exact valuesNodup_mergeBackOne dd q0.1 q0.2 h (hn q0 (List.mem_cons_self _ _))

theorem valuesNodup_normalizeSubtopics (d : SubtopicMap)
    (h : ∀ q ∈ d, q.2.Nodup) : ∀ q ∈ normalizeSubtopics d, q.2.Nodup := by
  have hf := valuesNodup_foldl_normStep d (d, []) h
    (fun q hq => absurd hq (List.not_mem_nil _))
  show ∀ q ∈ (d.foldl normStep (d, [])).2.foldl
    (fun dd p => mergeBackOne dd p.1 p.2) (d.foldl normStep (d, [])).1, q.2.Nodup
  exact valuesNodup_foldl_mergeBackOne _ _ hf.1 hf.2

theorem chapterSet_foldl_mergeIntoNew_cons (chs : List Nat) :
    ∀ (t : List String) (p : String) (n : SubtopicMap),
      chapterSet ((p :: t).foldl (fun n p => mergeIntoNew n (some p) chs) n)
        = chapterSet n ∪ chs.toFinset := by
  intro t
  induction t with
  | nil => intro p n; exact chapterSet_mergeIntoNew n (some p) chs
  | cons q t2 ih =>
    intro p n
    rw [show (p :: q :: t2).foldl (fun n p => mergeIntoNew n (some p) chs) n
      = (q :: t2).foldl (fun n p => mergeIntoNew n (some p) chs)
          (mergeIntoNew n (some p) chs) from rfl]
    rw [ih q (mergeIntoNew n (some p) chs), chapterSet_mergeIntoNew]
    ext c
    simp only [Finset.mem_union]
    tauto

theorem chapterSet_normStep_snd (st : SubtopicMap × SubtopicMap)
    (item : Option String × List Nat) :
    chapterSet (normStep st item).2 = chapterSet st.2 ∪ item.2.toFinset := by
  obtain ⟨k2, chs2⟩ := item
  cases k2 with
  | none =>
    rw [normStep_none]
    exact chapterSet_mergeIntoNew st.2 none chs2
  | some s2 =>
    by_cases c1 : s2 ≠ "" ∧ isKept s2 = true
    · rw [normStep_kept _ _ _ c1]
      exact chapterSet_mergeIntoNew st.2 (some s2) chs2
    · by_cases c2 : s2 ≠ "" ∧ pyIn " and " s2 = true
      · rw [normStep_split _ _ _ c1 c2]
        cases hp : (pySplit " and " s2).map pyStrip with
        | nil =>
          exfalso
          have h2 : pySplit " and " s2 = [] := List.map_eq_nil_iff.1 hp
          unfold pySplit at h2
          exact splitChars_ne_nil _ _ (List.map_eq_nil_iff.1 h2)
        | cons p t =>
          exact chapterSet_foldl_mergeIntoNew_cons chs2 t p st.2
      · rw [normStep_else _ _ _ c1 c2]
        exact chapterSet_mergeIntoNew st.2 (some s2) chs2

theorem chapterSet_foldl_normStep_snd (l : List (Option String × List Nat)) :
    ∀ st : SubtopicMap × SubtopicMap,
      chapterSet (l.foldl normStep st).2 = chapterSet st.2 ∪ chapterSet l := by
  induction l with
  | nil =>
    intro st
    rw [chapterSet_nil]
    exact (Finset.union_empty _).symm
  | cons item t ih =>
    intro st
    rw [List.foldl_cons, ih, chapterSet_normStep_snd]
    rw [show chapterSet (item :: t) = item.2.toFinset ∪ chapterSet t from rfl]
    ext c
    simp only [Finset.mem_union]
    tauto

theorem chapterSet_normStep_fst (st : SubtopicMap × SubtopicMap)
    (item : Option String × List Nat) :
    chapterSet (normStep st item).1 ⊆ chapterSet st.1 := by
  obtain ⟨k2, chs2⟩ := item
  cases k2 with
  | none =>
    rw [normStep_none]
  | some s2 =>
    by_cases c1 : s2 ≠ "" ∧ isKept s2 = true
    · rw [normStep_kept _ _ _ c1]
    · by_cases c2 : s2 ≠ "" ∧ pyIn " and " s2 = true
      · rw [normStep_split _ _ _ c1 c2]
        exact chapterSet_dictDelete_subset st.1 (some s2)
      · rw [normStep_else _ _ _ c1 c2]

theorem chapterSet_foldl_normStep_fst (l : List (Option String × List Nat)) :
    ∀ st : SubtopicMap × SubtopicMap,
      chapterSet (l.foldl normStep st).1 ⊆ chapterSet st.1 := by
  induction l with
  | nil => intro st; exact fun c hc => hc
  | cons item t ih =>
    intro st
    rw [List.foldl_cons]
    exact fun c hc => chapterSet_normStep_fst st item (ih _ hc)

theorem chapterSet_foldl_mergeBackOne (n : SubtopicMap) :
    ∀ dd : SubtopicMap,
      chapterSet (n.foldl (fun dd p => mergeBackOne dd p.1 p.2) dd)
        = chapterSet dd ∪ chapterSet n := by
  induction n with
  | nil =>
    intro dd
    rw [chapterSet_nil]
    exact (Finset.union_empty _).symm
  | cons q t ih =>
    intro dd
    rw [List.foldl_cons, ih, chapterSet_mergeBackOne]
    rw [show chapterSet (q :: t) = q.2.toFinset ∪ chapterSet t from rfl]
    ext c
    simp only [Finset.mem_union]
    tauto

theorem chapterSet_normalizeSubtopics (d : SubtopicMap) :
    chapterSet (normalizeSubtopics d) = chapterSet d := by
  show chapterSet ((d.foldl normStep (d, [])).2.foldl
    (fun dd p => mergeBackOne dd p.1 p.2) (d.foldl normStep (d, [])).1) = chapterSet d
  rw [chapterSet_foldl_mergeBackOne, chapterSet_foldl_normStep_snd]
  have hsub := chapterSet_foldl_normStep_fst d (d, [])
  rw [show ((d, ([] : SubtopicMap)) : SubtopicMap × SubtopicMap).2 = [] from rfl,
    chapterSet_nil]
  ext c
  simp only [Finset.mem_union, Finset.not_mem_empty, false_or]
  constructor
  · rintro (hc | hc)
    · exact hsub hc
    · exact hc
  · intro hc
    exact Or.inr hc

/-- C7: every subject key of the final index is the canonical spelling of
an approved subject; chapter numbers are unique in every subtopic list both
after accumulation and after normalization; and per subject, normalization
never removes (or invents) a chapter: the union of chapter numbers over the
subtopic keys after the pass equals the union before it. -/
theorem index_invariants (approved : List Candidate) (results : List ChapterResult) :
    (∀ p ∈ buildFinalIndex approved results, ∃ a ∈ approved, p.1 = a.subject)
    ∧ (∀ p ∈ buildIndexAccum approved results, ∀ q ∈ p.2, q.2.Nodup)
    ∧ (∀ p ∈ buildFinalIndex approved results, ∀ q ∈ p.2, q.2.Nodup)
    ∧ (∀ p ∈ buildIndexAccum approved results,
        chapterSet (normalizeSubtopics p.2) = chapterSet p.2) := by
  refine ⟨?_, buildIndexAccum_nodup approved results, ?_, ?_⟩
  · intro p hp
    unfold buildFinalIndex normalizeIndex at hp
    rcases List.mem_map.1 hp with ⟨p0, hp0, rfl⟩
    rcases buildIndexAccum_keys approved results p0 hp0 with ⟨a, ha, he⟩
    exact ⟨a, ha, he⟩
  · intro p hp
    unfold buildFinalIndex normalizeIndex at hp
    rcases List.mem_map.1 hp with ⟨p0, hp0, rfl⟩
    exact valuesNodup_normalizeSubtopics p0.2
      (buildIndexAccum_nodup approved results p0 hp0)
  · intro p hp
    exact chapterSet_normalizeSubtopics p.2

/-- Witness for C7: on the Gravity scenario the single subject key is the
canonical `Gravity`, the tides chapter list is duplicate-free, and
normalization preserves the subject chapter set. -/
theorem index_invariants_witness :
    (∃ a ∈ gravityApproved,
      (("Gravity", [(none, [1]), (some "tides", [1, 2])]) : String × SubtopicMap).1
        = a.subject)
    ∧ (((some "tides" : Option String), ([1, 2] : List Nat)).2.Nodup)
    ∧ chapterSet (normalizeSubtopics [(none, [1]), (some "tides", [1, 2])])
        = chapterSet [(none, [1]), (some "tides", [1, 2])] := by
  have h := index_invariants gravityApproved gravityResults
  refine ⟨?_, ?_, ?_⟩
  · exact h.1 ("Gravity", [(none, [1]), (some "tides", [1, 2])]) (by decide)
  · exact h.2.1 ("Gravity", [(none, [1]), (some "tides", [1, 2])]) (by decide)
      (some "tides", [1, 2]) (by decide)
  · exact h.2.2.2 ("Gravity", [(none, [1]), (some "tides", [1, 2])]) (by decide)

/-! ### Helper lemmas for the renderer grouping (C2) -/

theorem groupBy_keys_mono (named : List (String × List Nat)) :
    ∀ (g : List (List Nat × List String)) (k : List Nat), k ∈ keysOf g →
      k ∈ keysOf (named.foldl
        (fun g p => updEntry g (sortNat p.2) (fun l => l ++ [p.1]) [p.1]) g) := by
  induction named with
  | nil => intro g k h; exact h
  | cons q t ih =>
    intro g k h
    rw [List.foldl_cons]
    exact ih _ k ((mem_keysOf_updEntry _ _ _ _ _).2 (Or.inl h))

theorem groupBy_keys_cover (named : List (String × List Nat)) :
    ∀ (g : List (List Nat × List String)), ∀ p ∈ named,
      sortNat p.2 ∈ keysOf (named.foldl
        (fun g p => updEntry g (sortNat p.2) (fun l => l ++ [p.1]) [p.1]) g) := by
  induction named with
  | nil => intro g p hp; cases hp
  | cons q t ih =>
    intro g p hp
    rw [List.foldl_cons]
    rcases List.mem_cons.1 hp with rfl | hp
    · exact groupBy_keys_mono t _ _ ((mem_keysOf_updEntry _ _ _ _ _).2 (Or.inr rfl))
    · exact ih _ p hp

theorem groupBy_len_one_allsame (named : List (String × List Nat))
    (h1 : (groupByChapters named).length = 1) :
    ∀ p ∈ named, ∀ q ∈ named, sortNat p.2 = sortNat q.2 := by
  cases hg : groupByChapters named with
  | nil =>
    rw [hg] at h1
    simp at h1
  | cons g0 gt =>
    rw [hg] at h1
    have hgt : gt = [] := by
      simpa using h1
    subst hgt
    intro p hp q hq
    have hp2 := groupBy_keys_cover named [] p hp
    have hq2 := groupBy_keys_cover named [] q hq
    rw [show (named.foldl
        (fun g p => updEntry g (sortNat p.2) (fun l => l ++ [p.1]) [p.1]) [])
      = groupByChapters named from rfl, hg] at hp2 hq2
    have hpk : sortNat p.2 = g0.1 := by simpa [keysOf] using hp2
    have hqk : sortNat q.2 = g0.1 := by simpa [keysOf] using hq2
    rw [hpk, hqk]

theorem groupBy_allsame_aux (k0 : List Nat) (named : List (String × List Nat)) :
    (∀ p ∈ named, sortNat p.2 = k0) →
      ∀ subs, named.foldl
          (fun g p => updEntry g (sortNat p.2) (fun l => l ++ [p.1]) [p.1]) [(k0, subs)]
        = [(k0, subs ++ named.map Prod.fst)] := by
  induction named with
  | nil =>
    intro _ subs
    simp
  | cons p t ih =>
    intro hall subs
    rw [List.foldl_cons]
    have hk : sortNat p.2 = k0 := hall p (List.mem_cons_self _ _)
    have hstep : updEntry [(k0, subs)] k0 (fun l => l ++ [p.1]) [p.1]
        = [(k0, subs ++ [p.1])] := by
      unfold updEntry
      rw [if_pos rfl]
    rw [hk, hstep, ih (fun q hq => hall q (List.mem_cons_of_mem _ hq)) (subs ++ [p.1])]
    simp

theorem groupByChapters_allsame (p0 : String × List Nat) (t : List (String × List Nat))
    (hall : ∀ p ∈ p0 :: t, sortNat p.2 = sortNat p0.2) :
    groupByChapters (p0 :: t) = [(sortNat p0.2, (p0 :: t).map Prod.fst)] := by
  unfold groupByChapters
  rw [List.foldl_cons]
  have hstep : updEntry ([] : List (List Nat × List String)) (sortNat p0.2)
      (fun l => l ++ [p0.1]) [p0.1] = [(sortNat p0.2, [p0.1])] := rfl
  rw [hstep,
    groupBy_allsame_aux (sortNat p0.2) t (fun q hq => hall q (List.mem_cons_of_mem _ hq))
      [p0.1]]
  simp

theorem sortStr_length (l : List String) : (sortStr l).length = l.length :=
  (List.perm_insertionSort _ l).length_eq

/-- C2: for a subject with at least one non-null subtopic, the renderer
emits the inline merged form (all subtopic names comma-joined and sorted in
one parenthetical, followed by the single shared reference list) exactly
when all non-null subtopics carry the identical sorted chapter tuple;
whenever any two subtopics differ in their sorted chapter tuple, the
standalone-hierarchical form with one indented line per subtopic is emitted
instead. -/
theorem inline_merge_iff (subject : String) (d : SubtopicMap)
    (labels : List (Nat × String)) (h : namedOf d ≠ []) :
    (subjectBlock subject d labels = inlineForm subject (namedOf d) labels
      ↔ ∀ p ∈ namedOf d, ∀ q ∈ namedOf d, sortNat p.2 = sortNat q.2)
    ∧ ((¬ ∀ p ∈ namedOf d, ∀ q ∈ namedOf d, sortNat p.2 = sortNat q.2)
      → subjectBlock subject d labels = hierForm subject (namedOf d) labels) := by
  have hne : (namedOf d).isEmpty = false := by
    cases hn : namedOf d with
    | nil => exact absurd hn h
    | cons q t => rfl
  have hblock : subjectBlock subject d labels
      = if (groupByChapters (namedOf d)).length = 1 then
          (match groupByChapters (namedOf d) with
          | (key, subs) :: _ =>
            ["\\textbf\x7b" ++ escSubject subject ++ "\x7d ("
              ++ pyJoin ", " (sortStr subs) ++ "), "
              ++ pyJoin ", " (mkRefs labels (sortNat key)) ++ "\\\\"]
          | [] => [])
        else hierForm subject (namedOf d) labels := by
    simp only [subjectBlock, hne, Bool.false_eq_true, if_false]
    rfl
  have hinline_eq : (∀ p ∈ namedOf d, ∀ q ∈ namedOf d, sortNat p.2 = sortNat q.2) →
      subjectBlock subject d labels = inlineForm subject (namedOf d) labels := by
    intro hall
    cases hn : namedOf d with
    | nil => exact absurd hn h
    | cons p0 t =>
      rw [hn] at hall hblock
      have hg := groupByChapters_allsame p0 t
        (fun p hp => hall p hp p0 (List.mem_cons_self _ _))
      rw [hblock, hg, if_pos (by rfl)]
      show ["\\textbf\x7b" ++ escSubject subject ++ "\x7d ("
          ++ pyJoin ", " (sortStr (List.map Prod.fst (p0 :: t))) ++ "), "
          ++ pyJoin ", " (mkRefs labels (sortNat (sortNat p0.2))) ++ "\\\\"]
        = inlineForm subject (p0 :: t) labels
      rw [sortNat_idem]
      rfl
  have hhier_eq : (¬ ∀ p ∈ namedOf d, ∀ q ∈ namedOf d, sortNat p.2 = sortNat q.2) →
      subjectBlock subject d labels = hierForm subject (namedOf d) labels := by
    intro hall
    have hlen : ¬ (groupByChapters (namedOf d)).length = 1 :=
      fun hl => hall (groupBy_len_one_allsame _ hl)
    rw [hblock, if_neg hlen]
  refine ⟨⟨?_, hinline_eq⟩, hhier_eq⟩
  intro hb
  by_contra hall
  have hh := hhier_eq hall
  rw [hh] at hb
  cases hn : namedOf d with
  | nil => exact h hn
  | cons p0 t =>
    rw [hn] at hb
    have hlenH : (hierForm subject (p0 :: t) labels).length
        = (sortStr ((p0 :: t).map Prod.fst)).length + 1 := by
      simp [hierForm]
    have hlenI : (inlineForm subject (p0 :: t) labels).length = 1 := rfl
    have hcontra := congrArg List.length hb
    rw [hlenH, hlenI, sortStr_length, List.length_map, List.length_cons] at hcontra
    omega

/-- Witness for C2: with equal sorted chapter tuples the block is the
inline merged form; making the chapter sets differ by one element switches
it to the standalone-hierarchical form. -/
theorem inline_merge_iff_witness :
    subjectBlock "Alpha" sameSetsMap [] = inlineForm "Alpha" (namedOf sameSetsMap) []
    ∧ subjectBlock "Alpha" splitSetsMap [] = hierForm "Alpha" (namedOf splitSetsMap) [] := by
  constructor
  · exact ((inline_merge_iff "Alpha" sameSetsMap [] (by decide)).1).2 (by decide)
  · exact (inline_merge_iff "Alpha" splitSetsMap [] (by decide)).2 (by decide)
